import Mathlib

/-!
Verification development for the CoAssist banking RAG pipeline.

The Lean definitions below are shallow embeddings of the Python sources:
  backend/rag/hybrid.py, backend/rerankers/llm_reranker.py, backend/utils/text.py,
  backend/rag/corpus.py, backend/context/builder.py,
  core/indexes.py, core/retrieve.py, app.py.
Float scores are modelled by rationals; Python object identity for chunks is
modelled by structural equality on a chunk value carrying all observable
fields; datetimes are modelled by a civil calendar mapped to epoch seconds.
Modelling notes accompany each definition.  Definitions come first, all
theorems follow.
-/

/-! ## Definitions -/

/-! ### Stable sort

Python `sorted(..., reverse=True)` and `list.sort(key=..., reverse=True)` are
stable sorts.  The output of a stable sort is uniquely determined by the
comparison and the input order, so any stable algorithm is an exact model; we
use insertion sort, which is structurally recursive and hence evaluates inside
the kernel.  An element is inserted in front of the first element it compares
less-or-equal to, so earlier elements win ties: this is stability. -/

def insertS (le : α → α → Bool) (a : α) : List α → List α
  | [] => [a]
  | b :: rest => if le a b then a :: b :: rest else b :: insertS le a rest

def sortS (le : α → α → Bool) (l : List α) : List α := l.foldr (insertS le) []

/-- Comparison used by all the score-descending sorts in the sources
(`sorted(..., key=lambda kv: kv[1], reverse=True)`). -/
def scoreDescLe (a b : α × ℚ) : Bool := decide (b.2 ≤ a.2)

/-! ### Python string helpers -/

/-- Python truthiness of an optional string (`if v:`): `None` and `""` are falsy. -/
def truthyS : Option String → Bool
  | none => false
  | some s => !(s == "")

/-- Python `a or b` on optional strings (returns `a` when truthy, else `b`). -/
def pyOrS (a b : Option String) : Option String := if truthyS a then a else b

/-- Python `s.lower()` (ASCII model). -/
def toLowerS (s : String) : String := String.mk (s.data.map Char.toLower)

/-- Python `s.upper()` (ASCII model). -/
def toUpperS (s : String) : String := String.mk (s.data.map Char.toUpper)

def startsWithCs : List Char → List Char → Bool
  | [], _ => true
  | _ :: _, [] => false
  | a :: as, b :: bs => a == b && startsWithCs as bs

def containsCs (needle : List Char) : List Char → Bool
  | [] => needle == []
  | c :: rest => startsWithCs needle (c :: rest) || containsCs needle rest

/-- Python `needle in hay` on strings (substring test). -/
def containsSub (needle hay : String) : Bool := containsCs needle.data hay.data

/-- Lexicographic strict order on code points, as Python compares strings. -/
def lexLtCs : List Char → List Char → Bool
  | [], [] => false
  | [], _ :: _ => true
  | _ :: _, [] => false
  | a :: as, b :: bs =>
    if a.toNat < b.toNat then true
    else if b.toNat < a.toNat then false
    else lexLtCs as bs

/-- Non-strict string comparison used to model Python `sorted` on strings. -/
def strLeB (a b : String) : Bool := !(lexLtCs b.data a.data)

/-- Python `str.strip()` (ASCII-whitespace model). -/
def trimCs (cs : List Char) : List Char :=
  ((cs.dropWhile Char.isWhitespace).reverse.dropWhile Char.isWhitespace).reverse

/-- Zero-padded two-digit rendering (for month numbers and cents). -/
def pad2 (n : Nat) : String := if n < 10 then "0" ++ toString n else toString n

/-! ### Civil calendar and `datetime.fromisoformat`

`datetime` values are mapped to epoch seconds through the standard civil
calendar algorithms.  The parser models CPython's (pre-3.11, strict)
`fromisoformat` grammar: `YYYY-MM-DD[<sep>HH[:MM[:SS[.fff[fff]]]]][+HH:MM]`,
with field validation; fractional seconds are consumed but dropped
(sub-second resolution is below anything the sources compare), and only the
`+HH:MM`-shaped offsets are modelled.  A parse result carries an `aware` flag
(whether the string had a UTC offset) and the instant in epoch seconds; naive
strings are interpreted in the deployment reference timezone, which the spec
fixes to UTC. -/

def isLeapYear (y : Nat) : Bool := (y % 4 == 0 && y % 100 != 0) || y % 400 == 0

def daysInMonth (y m : Nat) : Nat :=
  if m == 2 then (if isLeapYear y then 29 else 28)
  else if m == 4 || m == 6 || m == 9 || m == 11 then 30 else 31

/-- Days from 1970-01-01 for a civil date (Hinnant's algorithm; for the years
accepted by the parser all intermediate quantities are nonnegative, so
truncating division coincides with floor division). -/
def daysFromCivil (y m d : Nat) : Int :=
  let yi : Int := if m ≤ 2 then (y : Int) - 1 else (y : Int)
  let era : Int := yi / 400
  let yoe : Int := yi - era * 400
  let mp : Int := ((m : Int) + 9) % 12
  let doy : Int := (153 * mp + 2) / 5 + (d : Int) - 1
  let doe : Int := yoe * 365 + yoe / 4 - yoe / 100 + doy
  era * 146097 + doe - 719468

/-- Inverse of `daysFromCivil` (year, month, day). -/
def civilFromDays (z0 : Int) : Int × Int × Int :=
  let z := z0 + 719468
  let era : Int := z / 146097
  let doe := z - era * 146097
  let yoe := (doe - doe / 1460 + doe / 36524 - doe / 146096) / 365
  let y := yoe + era * 400
  let doy := doe - (365 * yoe + yoe / 4 - yoe / 100)
  let mp := (5 * doy + 2) / 153
  let d := doy - (153 * mp + 2) / 5 + 1
  let m := if mp < 10 then mp + 3 else mp - 9
  (if m ≤ 2 then y + 1 else y, m, d)

def digitVal (c : Char) : Option Nat :=
  if c.isDigit then some (c.toNat - 48) else none

def digits2 : List Char → Option (Nat × List Char)
  | a :: b :: rest =>
    match digitVal a, digitVal b with
    | some x, some y => some (10 * x + y, rest)
    | _, _ => none
  | _ => none

def digits4 : List Char → Option (Nat × List Char)
  | a :: b :: c :: d :: rest =>
    match digitVal a, digitVal b, digitVal c, digitVal d with
    | some x, some y, some z, some w => some (1000 * x + 100 * y + 10 * z + w, rest)
    | _, _, _, _ => none
  | _ => none

def expectC (c : Char) : List Char → Option (List Char)
  | x :: rest => if x == c then some rest else none
  | [] => none

/-- Consume a `.fff` or `.ffffff` fractional-second field, if present. -/
def skipFrac : List Char → Option (List Char)
  | '.' :: rest =>
    match rest with
    | a :: b :: c :: d :: e :: f :: r2 =>
      if [a, b, c, d, e, f].all Char.isDigit then some r2
      else if [a, b, c].all Char.isDigit then some (d :: e :: f :: r2)
      else none
    | a :: b :: c :: r2 => if [a, b, c].all Char.isDigit then some r2 else none
    | _ => none
  | rest => some rest

/-- Parse the `±HH:MM` offset tail: `some none` when the string ends with no
offset (a naive datetime), `some (some secs)` for an offset. -/
def parseOffsetCs : List Char → Option (Option Int)
  | [] => some none
  | '+' :: rest =>
    match digits2 rest with
    | none => none
    | some (oh, r1) =>
      match expectC ':' r1 with
      | none => none
      | some r2 =>
        match digits2 r2 with
        | none => none
        | some (om, r3) =>
          if r3 = [] ∧ oh ≤ 23 ∧ om ≤ 59 then some (some ((oh : Int) * 3600 + (om : Int) * 60))
          else none
  | '-' :: rest =>
    match digits2 rest with
    | none => none
    | some (oh, r1) =>
      match expectC ':' r1 with
      | none => none
      | some r2 =>
        match digits2 r2 with
        | none => none
        | some (om, r3) =>
          if r3 = [] ∧ oh ≤ 23 ∧ om ≤ 59 then some (some (-((oh : Int) * 3600 + (om : Int) * 60)))
          else none
  | _ => none

def parseTimeCs (cs : List Char) : Option (Nat × Nat × Nat × List Char) :=
  match digits2 cs with
  | none => none
  | some (hh, r1) =>
    match r1 with
    | ':' :: r2 =>
      match digits2 r2 with
      | none => none
      | some (mm, r3) =>
        match r3 with
        | ':' :: r4 =>
          match digits2 r4 with
          | none => none
          | some (ss, r5) =>
            match skipFrac r5 with
            | none => none
            | some r6 => some (hh, mm, ss, r6)
        | _ => some (hh, mm, 0, r3)
    | _ => some (hh, 0, 0, r1)

def parseIsoCs (cs : List Char) : Option (Bool × Int) :=
  match digits4 cs with
  | none => none
  | some (y, r1) =>
    match expectC '-' r1 with
    | none => none
    | some r2 =>
      match digits2 r2 with
      | none => none
      | some (mo, r3) =>
        match expectC '-' r3 with
        | none => none
        | some r4 =>
          match digits2 r4 with
          | none => none
          | some (d, r5) =>
            if 1 ≤ y ∧ 1 ≤ mo ∧ mo ≤ 12 ∧ 1 ≤ d ∧ d ≤ daysInMonth y mo then
              match r5 with
              | [] => some (false, daysFromCivil y mo d * 86400)
              | _ :: r6 =>
                match parseTimeCs r6 with
                | none => none
                | some (hh, mm, ss, r7) =>
                  if hh ≤ 23 ∧ mm ≤ 59 ∧ ss ≤ 59 then
                    match parseOffsetCs r7 with
                    | none => none
                    | some none =>
                      some (false, daysFromCivil y mo d * 86400
                        + (hh : Int) * 3600 + (mm : Int) * 60 + (ss : Int))
                    | some (some off) =>
                      some (true, daysFromCivil y mo d * 86400
                        + (hh : Int) * 3600 + (mm : Int) * 60 + (ss : Int) - off)
                  else none
            else none

/-- Python `s.replace("Z", "+00:00")`. -/
def replaceZ : List Char → List Char
  | [] => []
  | c :: rest =>
    if c == 'Z' then '+' :: '0' :: '0' :: ':' :: '0' :: '0' :: replaceZ rest
    else c :: replaceZ rest

/-- `datetime.fromisoformat(s.replace("Z", "+00:00"))`: `aware` flag plus the
instant in epoch seconds (naive strings read as UTC, the deployment tz). -/
def parseIso (s : String) : Option (Bool × Int) := parseIsoCs (replaceZ s.data)

/-- `_parse_dt` of core/retrieve.py: parse, keeping awareness. -/
def _parse_dt (o : Option String) : Option (Bool × Int) :=
  match o with
  | none => none
  | some s => if s == "" then none else parseIso s

/-- `_to_utc` of core/indexes.py: parse and convert to a UTC instant (a naive
result is interpreted in the deployment timezone, UTC by the spec contract). -/
def _to_utc (o : Option String) : Option Int :=
  match o with
  | none => none
  | some s => if s == "" then none else (parseIso s).map (·.2)

/-- `_ym` of core/indexes.py: `dt.strftime("%Y-%m")` of the UTC instant. -/
def _ym (o : Option String) : Option String :=
  match _to_utc o with
  | none => none
  | some t =>
    let c := civilFromDays (Int.fdiv t 86400)
    some (toString c.1 ++ "-" ++ pad2 c.2.1.toNat)

/-- A wall-clock datetime in the reference (UTC) timezone, used for "now". -/
structure DateTime where
  year : Nat
  month : Nat
  day : Nat
  hour : Nat
  minute : Nat
  second : Nat
deriving DecidableEq, Repr

def toEpochSec (d : DateTime) : Int :=
  daysFromCivil d.year d.month d.day * 86400
    + (d.hour : Int) * 3600 + (d.minute : Int) * 60 + (d.second : Int)

/-- `now.replace(day=1, hour=0, minute=0, second=0, microsecond=0)`. -/
def monthStart (now : DateTime) : DateTime :=
  { now with day := 1, hour := 0, minute := 0, second := 0 }

/-! ### backend/rag/hybrid.py

Chunks are merged keyed on Python object identity (`id(c)`).  In the model a
chunk value carries all of its observable fields, and distinct result-list
entries referring to distinct Python objects are distinct values, so identity
is modelled by structural equality (the merge is generic in the chunk type).
`math.isclose(hi, lo)` is modelled by exact equality on the rational scores. -/

/-- `_normalize` of backend/rag/hybrid.py: min-max normalization, all-equal
lists collapse to 0.0. -/
def _normalize (scores : List ℚ) : List ℚ :=
  match scores with
  | [] => []
  | s :: rest =>
    let lo := rest.foldl min s
    let hi := rest.foldl max s
    if hi = lo then scores.map fun _ => 0
    else scores.map fun x => (x - lo) / (hi - lo)

/-- `combined[key] = combined.get(key, 0.0) + v` on an insertion-ordered dict. -/
def dictAdd [DecidableEq α] (m : List (α × ℚ)) (k : α) (v : ℚ) : List (α × ℚ) :=
  match m with
  | [] => [(k, v)]
  | (k2, v2) :: rest => if k2 = k then (k2, v2 + v) :: rest else (k2, v2) :: dictAdd rest k v

/-- `m.get(k, 0.0)` on an insertion-ordered dict. -/
def dget [DecidableEq α] (m : List (α × ℚ)) (k : α) : ℚ :=
  match m with
  | [] => 0
  | (k2, v2) :: rest => if k2 = k then v2 else dget rest k

def keysOf (m : List (α × β)) : List α := m.map Prod.fst

/-- `hybrid_merge` of backend/rag/hybrid.py: normalize both score lists,
accumulate `alpha * v + (1 - alpha) * l` per chunk in a dict keyed by chunk
identity (vector entries first, then lexical entries, preserving insertion
order), then stable-sort descending by combined score and truncate to `k`. -/
def hybrid_merge [DecidableEq α] (vec_results lex_results : List (α × ℚ))
    (alpha : ℚ) (k : Nat) : List (α × ℚ) :=
  let v_scores := _normalize (vec_results.map Prod.snd)
  let l_scores := _normalize (lex_results.map Prod.snd)
  let m1 := ((vec_results.map Prod.fst).zip v_scores).foldl
      (fun m p => dictAdd m p.1 (alpha * p.2)) []
  let m2 := ((lex_results.map Prod.fst).zip l_scores).foldl
      (fun m p => dictAdd m p.1 ((1 - alpha) * p.2)) m1
  (sortS scoreDescLe m2).take k

/-- Spec-side helper: the min-max-normalized score a result list assigns to a
chunk, 0 when the chunk is absent from the list. -/
def normScore [DecidableEq α] (results : List (α × ℚ)) (c : α) : ℚ :=
  dget ((results.map Prod.fst).zip (_normalize (results.map Prod.snd))) c

/-- Spec-side definition for the pure-semantic degeneracy property (section 8
of the spec): the top-`k` of the vector results ranked by normalized score
(stable descending sort, then truncate). -/
def topkByNormalized (vec_results : List (α × ℚ)) (k : Nat) : List (α × ℚ) :=
  (sortS scoreDescLe
    ((vec_results.map Prod.fst).zip (_normalize (vec_results.map Prod.snd)))).take k

/-! ### backend/rerankers/llm_reranker.py

The judge response for each batch is an oracle input: `malformed` models a
reply `json.loads` or `.get` raises on, `scores js` a parsed reply whose
`scores` list has the given entries (`none` for an entry `float()` rejects).
-/

inductive JudgeResp where
  | malformed : JudgeResp
  | scores : List (Option ℚ) → JudgeResp
deriving DecidableEq, Repr

/-- `candidates[i:i+batch]` grouping of `range(0, len(candidates), batch)`.
Faithful for `batch ≥ 1` (Python raises on a zero step). -/
def chunksOf (batch : Nat) : List α → List (List α)
  | [] => []
  | x :: xs => (x :: xs.take (batch - 1)) :: chunksOf batch (xs.drop (batch - 1))
termination_by l => l.length
decreasing_by simp only [List.length_drop, List.length_cons]; omega

/-- One batch of `rerank_with_llm`: zip candidates with parsed scores (Python
`zip` truncates to the shorter list), `0.0` where `float()` fails, and the
whole batch at `0.0` when the reply does not parse. -/
def scoreBatch (items : List α) (resp : JudgeResp) : List (α × ℚ) :=
  match resp with
  | .malformed => items.map fun c => (c, 0)
  | .scores js => (items.zip js).map fun p => (p.1, p.2.getD 0)

/-- `rerank_with_llm` of backend/rerankers/llm_reranker.py: batch the
candidates, score each batch from the judge reply, then stable-sort the
accumulated pairs descending by score. -/
def rerank_with_llm (_query : String) (candidates : List α) (batch : Nat)
    (judge : Nat → JudgeResp) : List (α × ℚ) :=
  let out := ((chunksOf batch candidates).enum).flatMap fun p => scoreBatch p.2 (judge p.1)
  sortS scoreDescLe out

/-! ### backend/utils/text.py -/

def collapseWsAux : Bool → List Char → List Char
  | _, [] => []
  | inWs, c :: rest =>
    if c.isWhitespace then
      if inWs then collapseWsAux true rest else ' ' :: collapseWsAux true rest
    else c :: collapseWsAux false rest

/-- `normalize_ws` of backend/utils/text.py: strip, then collapse every
whitespace run to a single space. -/
def normalize_ws (s : String) : String := String.mk (collapseWsAux false (trimCs s.data))

/-- The `while start < n` loop of `chunk_text`; the hypothesis `ov < size`
is exactly the condition under which the Python loop terminates. -/
def chunkLoop (cs : List Char) (size ov : Nat) (hov : ov < size) (start : Nat) : List String :=
  if h : start < cs.length then
    if he : min (start + size) cs.length = cs.length then
      [String.mk ((cs.drop start).take size)]
    else
      String.mk ((cs.drop start).take size)
        :: chunkLoop cs size ov hov (min (start + size) cs.length - ov)
  else []
termination_by cs.length - start
decreasing_by
  have hlt : start + size < cs.length := by
    rcases Nat.lt_or_ge (start + size) cs.length with h1 | h1
    · exact h1
    · exact absurd (Nat.min_eq_right h1) he
  rw [Nat.min_eq_left (Nat.le_of_lt hlt)]
  omega

/-- `chunk_text` of backend/utils/text.py. -/
def chunk_text (s : String) (size ov : Nat) (hov : ov < size) : List String :=
  let t := normalize_ws s
  if t = "" then [] else chunkLoop t.data size ov hov 0

/-! ### backend/loaders/json_loader.py and backend/rag/corpus.py

`flatten_for_rag` rows are modelled by their observable fields: the rendered
text, the source tag, and the `meta` mapping reduced to the keys the corpus
builder reads (`ym` and the raw record fields used by the aggregation).  The
raw record models `str()`-rendered fields as optional strings and numeric
fields as optional rationals (`none` where `isinstance(v, (int, float))` is
false or the key is missing). -/

structure RawRec where
  ym : Option String := none
  interestCharged : Option ℚ := none
  interestFlag : Bool := false
  transactionType : Option String := none
  displayTransactionType : Option String := none
  merchantName : Option String := none
  amount : Option ℚ := none
deriving DecidableEq, Repr

structure FlatRow where
  text : String := ""
  source : String := ""
  ym : Option String := none
  raw : RawRec := {}
deriving DecidableEq, Repr

/-- The `Chunk` dataclass of backend/rag/types.py, with `meta` reduced to the
one key later stages read (`ym`). -/
structure BChunk where
  text : String := ""
  source : String := ""
  ym : Option String := none
deriving DecidableEq, Repr

/-- Python `f"{q:.2f}"` on the rational model of a float (round half to even
at two decimals). -/
def fmt2 (q : ℚ) : String :=
  let sgn := if q < 0 then "-" else ""
  let a := |q| * 100
  let fl : Int := ⌊a⌋
  let frac := a - (fl : ℚ)
  let r : Int :=
    if frac > 1/2 then fl + 1
    else if frac < 1/2 then fl
    else if fl % 2 = 0 then fl else fl + 1
  let n : Nat := r.toNat
  sgn ++ toString (n / 100) ++ "." ++ pad2 (n % 100)

/-- The `interest_stmt` accumulation of `build_corpus`: sum `interestCharged`
per truthy `ym` over statement rows. -/
def aggStmt (flat : List FlatRow) : List (String × ℚ) :=
  flat.foldl (fun m row =>
    if row.source == "statement" then
      match pyOrS row.ym row.raw.ym with
      | some ym =>
        if ym != "" then
          match row.raw.interestCharged with
          | some v => dictAdd m ym v
          | none => m
        else m
      | none => m
    else m) []

/-- The `is_interest` test of `build_corpus` (missing string fields render as
`str(None)`, which fails all four tests exactly as `""` does). -/
def txIsInterest (raw : RawRec) : Bool :=
  raw.interestFlag
    || toUpperS (raw.transactionType.getD "") == "INTEREST"
    || toLowerS (raw.displayTransactionType.getD "") == "interest_charged"
    || containsSub "interest" (toLowerS (raw.merchantName.getD ""))

/-- The `interest_tx` accumulation of `build_corpus`: sum `abs(amount)` per
truthy `ym` over interest-like transaction rows. -/
def aggTx (flat : List FlatRow) : List (String × ℚ) :=
  flat.foldl (fun m row =>
    if row.source == "transaction" then
      match pyOrS row.ym row.raw.ym with
      | some ym =>
        if ym != "" && txIsInterest row.raw then
          match row.raw.amount with
          | some a => dictAdd m ym |a|
          | none => m
        else m
      | none => m
    else m) []

/-- Ascending sort key for `sorted(d.items())` (dict keys are distinct, so the
key alone decides). -/
def keyAscLe (a b : String × ℚ) : Bool := strLeB a.1 b.1

/-- `sorted(set(ks))[-1]`: the maximum of a nonempty key list. -/
def latestYm : List String → Option String
  | [] => none
  | s :: rest => some (rest.foldl (fun acc x => if lexLtCs acc.data x.data then x else acc) s)

/-- `build_corpus` of backend/rag/corpus.py, as a function of the flattened
rows and the extracted agreement text (`none` when agreement.pdf is absent). -/
def build_corpus (flat : List FlatRow) (pdfText : Option String) : List BChunk :=
  let base := flat.map fun row => ({ text := row.text, source := row.source, ym := row.ym } : BChunk)
  let istmt := aggStmt flat
  let itx := aggTx flat
  let aggS := (sortS keyAscLe istmt).map fun p =>
    ({ text := "AGGREGATE ym=" ++ p.1 ++ " interest_from_statements_total=" ++ fmt2 p.2,
       source := "aggregate", ym := some p.1 } : BChunk)
  let aggT := (sortS keyAscLe itx).map fun p =>
    ({ text := "AGGREGATE ym=" ++ p.1 ++ " interest_from_interest_transactions_total=" ++ fmt2 p.2,
       source := "aggregate", ym := some p.1 } : BChunk)
  let extras :=
    match latestYm (keysOf istmt ++ keysOf itx) with
    | none => []
    | some ly =>
      [ ({ text := "AGGREGATE latest_ym=" ++ ly, source := "aggregate" } : BChunk),
        ({ text := "AGGREGATE overall_interest_from_statements_total="
             ++ fmt2 (istmt.map (·.2)).sum, source := "aggregate" } : BChunk),
        ({ text := "AGGREGATE overall_interest_from_interest_transactions_total="
             ++ fmt2 (itx.map (·.2)).sum, source := "aggregate" } : BChunk) ]
  let agr :=
    match pdfText with
    | none => []
    | some t => (chunk_text t 1000 200 (by decide)).map fun ch =>
        ({ text := "AGREEMENT: " ++ ch, source := "agreement" } : BChunk)
  base ++ aggS ++ aggT ++ extras ++ agr

/-! ### backend/context/builder.py -/

inductive RerankerName where
  | noRerank : RerankerName
  | llm : RerankerName
deriving DecidableEq, Repr

def tryYmAt : List Char → Option String
  | a :: b :: c :: d :: h :: e :: f :: _ =>
    if a.isDigit && b.isDigit && c.isDigit && d.isDigit && h == '-' && e.isDigit && f.isDigit then
      some (String.mk [a, b, c, d, '-', e, f])
    else none
  | _ => none

/-- Leftmost match of the regex `(\d{4})-(\d{2})`. -/
def scanYm : List Char → Option String
  | [] => none
  | c :: rest =>
    match tryYmAt (c :: rest) with
    | some r => some r
    | none => scanYm rest

def monthMap : List (String × String) :=
  [("jan", "01"), ("feb", "02"), ("mar", "03"), ("apr", "04"), ("may", "05"), ("jun", "06"),
   ("jul", "07"), ("aug", "08"), ("sep", "09"), ("oct", "10"), ("nov", "11"), ("dec", "12")]

def isSepC (c : Char) : Bool := c.isWhitespace || c == '-' || c == '/' || c == '_' || c == ','

def isAlphaLower (c : Char) : Bool := 'a' ≤ c && c ≤ 'z'

/-- One attempt of the month-name regex (a month-name alternation, then a
letter run, then a nonempty run over the separator class of whitespace,
hyphen, slash, underscore and comma, then a year of shape 20 followed by two
digits) at a position of the lowercased query.  The character classes of the
three runs are pairwise disjoint, so greedy maximal munch without
backtracking is exact; the `sept` alternative of the source regex is
subsumed by `sep` plus the letter run, since only the first three letters of
the match are kept. -/
def tryMonthAt (cs : List Char) : Option String :=
  match monthMap.find? (fun p => startsWithCs p.1.data cs) with
  | none => none
  | some pr =>
    let r1 := (cs.drop 3).dropWhile isAlphaLower
    match r1 with
    | c :: _ =>
      if isSepC c then
        match r1.dropWhile isSepC with
        | a :: b :: c2 :: d :: _ =>
          if a == '2' && b == '0' && c2.isDigit && d.isDigit then
            some (String.mk [a, b, c2, d] ++ "-" ++ pr.2)
          else none
        | _ => none
      else none
    | [] => none

def scanMonth : List Char → Option String
  | [] => none
  | c :: rest =>
    match tryMonthAt (c :: rest) with
    | some r => some r
    | none => scanMonth rest

/-- `_extract_ym` of backend/context/builder.py. -/
def _extract_ym (q : String) : Option String :=
  match scanYm q.data with
  | some r => some r
  | none => scanMonth (toLowerS q).data

/-- The soft year-month bias of `build_context`: a 0.15 bonus to chunks whose
`meta["ym"]` equals the ym extracted from the query, then a stable descending
re-sort; a no-op when no ym is detected. -/
def ymBoost (query : String) (merged : List (BChunk × ℚ)) : List (BChunk × ℚ) :=
  match _extract_ym query with
  | some ym =>
    sortS scoreDescLe (merged.map fun p =>
      (p.1, p.2 + if p.1.ym = some ym then (15 : ℚ) / 100 else 0))
  | none => merged

/-- `build_context` of backend/context/builder.py: the FAISS and BM25 stores
are external collaborators, modelled as search functions; the judge replies
feed the optional LLM reranker. -/
def build_context (query : String) (vec : String → Nat → List (BChunk × ℚ))
    (bm25 : Option (String → Nat → List (BChunk × ℚ))) (use_hybrid : Bool)
    (alpha : ℚ) (kN kK : Nat) (reranker : RerankerName) (judge : Nat → JudgeResp) :
    List (BChunk × ℚ) :=
  let vec_res := vec query kN
  let merged : List (BChunk × ℚ) :=
    match bm25, use_hybrid with
    | some bm, true => hybrid_merge vec_res (bm query kN) alpha kN
    | _, _ => vec_res
  let merged2 : List (BChunk × ℚ) := ymBoost query merged
  match reranker with
  | .llm => (rerank_with_llm query (merged2.map Prod.fst) 20 judge).take kK
  | .noRerank => merged2.take kK

/-! ### core/indexes.py -/

/-- `_first(*vals)` of core/indexes.py: first truthy value, else `None`. -/
def _first (vals : List (Option String)) : Option String :=
  match vals with
  | [] => none
  | v :: rest => if truthyS v then v else _first rest

/-- A raw transaction record as `build_indexes` reads it; optional strings are
the `str()` renderings of the JSON values (`none` = key absent or null). -/
structure TxRecord where
  transactionDateTime : Option String := none
  postingDateTime : Option String := none
  authDateTime : Option String := none
  displayTransactionType : Option String := none
  transactionType : Option String := none
  debitCreditIndicator : Option String := none
  merchantName : Option String := none
  merchantDescription : Option String := none
  merchantCategoryName : Option String := none
  amount : Option ℚ := none
  transactionId : Option String := none
deriving DecidableEq, Repr

/-- Line 156 of core/indexes.py:
`_first(r.get("transactionDateTime"), r.get("postingDateTime"))` — the
canonical date; `authDateTime` is not passed. -/
def canonical_dt_iso (r : TxRecord) : Option String :=
  _first [r.transactionDateTime, r.postingDateTime]

def EXCLUDE_TYPES : List String := ["payment", "refund", "credit", "interest", "fee reversal"]

/-- `(r.get("displayTransactionType") or r.get("transactionType") or "").strip().lower()`. -/
def dtype (r : TxRecord) : String :=
  toLowerS (String.mk (trimCs ((pyOrS (pyOrS r.displayTransactionType r.transactionType)
    (some "")).getD "").data))

/-- `str(r.get("debitCreditIndicator", "1")) == "1"`. -/
def is_debit (r : TxRecord) : Bool := (r.debitCreditIndicator.getD "1") == "1"

/-- `bool(is_debit and dtype not in EXCLUDE_TYPES)`. -/
def is_spend_candidate (r : TxRecord) : Bool :=
  is_debit r && !(EXCLUDE_TYPES.contains (dtype r))

/-- The metadata of a transaction `TextNode` (core/indexes.py lines 173-187),
restricted to the keys later stages read. -/
structure TNode where
  kind : String := ""
  dt_iso : Option String := none
  ym : Option String := none
  merchantName : Option String := none
  amount : Option ℚ := none
  type : String := ""
  debit : Bool := false
  spend_candidate : Bool := false
  transactionId : Option String := none
deriving DecidableEq, Repr

/-- The transaction-node construction of `build_indexes` (metadata only; the
rendered text is not consumed by any verified stage). -/
def buildTxNode (r : TxRecord) : TNode :=
  { kind := "transaction",
    dt_iso := canonical_dt_iso r,
    ym := _ym (canonical_dt_iso r),
    merchantName := pyOrS (pyOrS r.merchantName r.merchantDescription) r.merchantCategoryName,
    amount := r.amount,
    type := dtype r,
    debit := is_debit r,
    spend_candidate := is_spend_candidate r,
    transactionId := r.transactionId }

/-! ### core/retrieve.py -/

/-- The loop-body predicate of `filter_spend_current_month`: non-transaction
nodes pass; transactions need the precomputed `spend_candidate` flag, a truthy
`dt_iso` that parses, and an instant inside `[month_start, now]`. -/
def spendKeep (now : DateTime) (n : TNode) : Bool :=
  if n.kind != "transaction" then true
  else if !n.spend_candidate then false
  else
    match n.dt_iso with
    | none => false
    | some s =>
      if s == "" then false
      else
        match parseIso s with
        | none => false
        | some p => decide (toEpochSec (monthStart now) ≤ p.2 ∧ p.2 ≤ toEpochSec now)

/-- `filter_spend_current_month` of core/retrieve.py (an early-return on an
empty list, then an append-if-kept loop: a filter). -/
def filter_spend_current_month (nodes : List TNode) (now : DateTime) : List TNode :=
  nodes.filter (spendKeep now)

/-- `_freshness_weight` of core/retrieve.py.  The weight is in the reals
because of `exp`; the result is an `Option` because the Python function
RAISES (`TypeError`: naive/aware subtraction) when `dt_iso` parses to a naive
datetime while `lam > 0` — `none` models that exception. -/
noncomputable def _freshness_weight (dt_iso : Option String) (lam : ℚ) (nowSec : Int) : Option ℝ :=
  if truthyS dt_iso = false ∨ lam ≤ 0 then some 1
  else
    match _parse_dt dt_iso with
    | none => some 1
    | some (aware, t) =>
      if aware then
        some (max (1 / 5) (Real.exp (-((lam : ℝ) * (((nowSec - t : Int) : ℝ) / 86400)))))
      else none

/-! ### app.py -/

/-- `_mentions_timeframe` of app.py. -/
def _mentions_timeframe (text : String) : Bool :=
  ["month", "year", "week", "day", "between", "since", "from", "to", "range"].any
    fun w => containsSub w (toLowerS text)

/-- The `is_spend_query` test of app.py (lines 159-161). -/
def is_spend_query (q : String) : Bool :=
  ["spend", "top merchant", "most", "highest spend"].any
    fun k => containsSub k (toLowerS q)

/-- The query the app passes to the extraction prompt: spend queries with no
timeframe marker get the current-calendar-month instruction appended
(app.py lines 164-170). -/
def app_query_for_llm (q : String) : String :=
  if is_spend_query q && !(_mentions_timeframe q) then q ++ " (assume current calendar month)"
  else q

/-- The candidate list after the app's spend filter (app.py lines 185-186):
spend queries are scoped by `filter_spend_current_month`. -/
def app_candidates (q : String) (retrieved : List TNode) (now : DateTime) : List TNode :=
  if is_spend_query q then filter_spend_current_month retrieved now else retrieved

/-! ## Theorems -/

/-! ### Stable-sort lemmas -/

theorem insertS_perm (le : α → α → Bool) (a : α) (l : List α) :
    (insertS le a l).Perm (a :: l) := by
  induction l with
  | nil => simp [insertS]
  | cons b rest ih =>
    by_cases h : le a b = true
    · simp [insertS, h]
    · simp only [insertS, h, if_false, Bool.false_eq_true, if_neg]
      exact (ih.cons b).trans (List.Perm.swap a b rest)

theorem sortS_perm (le : α → α → Bool) (l : List α) : (sortS le l).Perm l := by
  induction l with
  | nil => simp [sortS]
  | cons a rest ih =>
    have h1 : (sortS le (a :: rest)) = insertS le a (sortS le rest) := rfl
    rw [h1]
    exact (insertS_perm le a (sortS le rest)).trans (ih.cons a)

theorem insertS_pairwise (le : α → α → Bool)
    (htot : ∀ a b, le a b || le b a)
    (htr : ∀ a b c, le a b → le b c → le a c)
    (a : α) (l : List α) (hl : l.Pairwise (fun x y => le x y = true)) :
    (insertS le a l).Pairwise (fun x y => le x y = true) := by
  induction l with
  | nil => simp [insertS]
  | cons b rest ih =>
    rcases hl with _ | ⟨hb, hrest⟩
    by_cases h : le a b = true
    · simp only [insertS, h, if_true]
      refine List.Pairwise.cons ?_ (List.Pairwise.cons hb hrest)
      intro y hy
      rcases List.mem_cons.mp hy with rfl | hy
      · exact h
      · exact htr a b y h (hb y hy)
    · simp only [insertS, h, Bool.false_eq_true, if_neg, if_false]
      refine List.Pairwise.cons ?_ (ih hrest)
      intro y hy
      have hy2 := (insertS_perm le a rest).mem_iff.mp hy
      rcases List.mem_cons.mp hy2 with heq | hy3
      · rw [heq]
        rcases Bool.or_eq_true_iff.mp (htot a b) with h1 | h1
        · exact absurd h1 h
        · exact h1
      · exact hb y hy3

theorem sortS_pairwise (le : α → α → Bool)
    (htot : ∀ a b, le a b || le b a)
    (htr : ∀ a b c, le a b → le b c → le a c)
    (l : List α) : (sortS le l).Pairwise (fun x y => le x y = true) := by
  induction l with
  | nil => simp [sortS]
  | cons a rest ih => exact insertS_pairwise le htot htr a (sortS le rest) ih

theorem insertS_of_forall_le (le : α → α → Bool) (a : α) (l : List α)
    (h : ∀ y ∈ l, le a y = true) : insertS le a l = a :: l := by
  cases l with
  | nil => rfl
  | cons b rest => simp [insertS, h b (List.mem_cons_self b rest)]

theorem sortS_of_pairwise (le : α → α → Bool) (l : List α)
    (hl : l.Pairwise (fun x y => le x y = true)) : sortS le l = l := by
  induction l with
  | nil => rfl
  | cons a rest ih =>
    rcases hl with _ | ⟨ha, hrest⟩
    have h1 : sortS le (a :: rest) = insertS le a (sortS le rest) := rfl
    rw [h1, ih hrest]
    exact insertS_of_forall_le le a rest ha

theorem insertS_map (le : α → α → Bool) (le2 : β → β → Bool) (f : α → β)
    (hf : ∀ a b, le2 (f a) (f b) = le a b) (a : α) (l : List α) :
    insertS le2 (f a) (l.map f) = (insertS le a l).map f := by
  induction l with
  | nil => rfl
  | cons b rest ih =>
    by_cases h : le a b = true
    · simp [insertS, hf, h]
    · simp only [List.map, insertS, hf, h, Bool.false_eq_true, if_neg, if_false]
      rw [ih]

theorem sortS_map (le : α → α → Bool) (le2 : β → β → Bool) (f : α → β)
    (hf : ∀ a b, le2 (f a) (f b) = le a b) (l : List α) :
    sortS le2 (l.map f) = (sortS le l).map f := by
  induction l with
  | nil => rfl
  | cons a rest ih =>
    have h1 : sortS le2 ((a :: rest).map f) = insertS le2 (f a) (sortS le2 (rest.map f)) := rfl
    rw [h1, ih, insertS_map le le2 f hf]
    rfl

theorem scoreDescLe_total (a b : α × ℚ) : scoreDescLe a b || scoreDescLe b a := by
  simp only [scoreDescLe, Bool.or_eq_true, decide_eq_true_eq]
  exact le_total b.2 a.2

theorem scoreDescLe_trans (a b c : α × ℚ) :
    scoreDescLe a b → scoreDescLe b c → scoreDescLe a c := by
  simp only [scoreDescLe, decide_eq_true_eq]
  intro h1 h2
  exact le_trans h2 h1

/-! ### Hybrid-merge lemmas -/

theorem normalize_length (scores : List ℚ) : (_normalize scores).length = scores.length := by
  match scores with
  | [] => rfl
  | s :: rest =>
    simp only [_normalize]
    by_cases h : rest.foldl max s = rest.foldl min s
    · simp [h]
    · simp [h]

theorem foldl_min_all_eq (x : ℚ) (rest : List ℚ) (h : ∀ y ∈ rest, y = x) :
    List.foldl min x rest = x := by
  induction rest with
  | nil => rfl
  | cons b t ih =>
    have hb : b = x := h b (List.mem_cons_self b t)
    simp only [List.foldl, hb, min_self]
    exact ih fun y hy => h y (List.mem_cons.mpr (Or.inr hy))

theorem foldl_max_all_eq (x : ℚ) (rest : List ℚ) (h : ∀ y ∈ rest, y = x) :
    List.foldl max x rest = x := by
  induction rest with
  | nil => rfl
  | cons b t ih =>
    have hb : b = x := h b (List.mem_cons_self b t)
    simp only [List.foldl, hb, max_self]
    exact ih fun y hy => h y (List.mem_cons.mpr (Or.inr hy))

theorem normalize_const (x : ℚ) (scores : List ℚ) (h : ∀ y ∈ scores, y = x) :
    _normalize scores = scores.map fun _ => 0 := by
  match scores with
  | [] => rfl
  | s :: rest =>
    have hs : s = x := h s (List.mem_cons_self s rest)
    subst hs
    have hrest : ∀ y ∈ rest, y = s := fun y hy => h y (List.mem_cons.mpr (Or.inr hy))
    have hlo : List.foldl min s rest = s := foldl_min_all_eq s rest hrest
    have hhi : List.foldl max s rest = s := foldl_max_all_eq s rest hrest
    simp [_normalize, hlo, hhi]

theorem dget_dictAdd_same [DecidableEq α] (m : List (α × ℚ)) (k : α) (v : ℚ) :
    dget (dictAdd m k v) k = dget m k + v := by
  induction m with
  | nil => simp [dictAdd, dget]
  | cons p rest ih =>
    obtain ⟨k2, v2⟩ := p
    by_cases h : k2 = k
    · simp [dictAdd, dget, h]
    · simp [dictAdd, dget, h, ih]

theorem dget_dictAdd_other [DecidableEq α] (m : List (α × ℚ)) (k q : α) (v : ℚ)
    (hne : q ≠ k) : dget (dictAdd m k v) q = dget m q := by
  have hkq : k ≠ q := fun he => hne he.symm
  induction m with
  | nil => simp [dictAdd, dget, hkq]
  | cons p rest ih =>
    obtain ⟨k2, v2⟩ := p
    by_cases h : k2 = k
    · subst h
      simp [dictAdd, dget, hkq]
    · simp [dictAdd, dget, h, ih]

theorem keysOf_dictAdd_mem [DecidableEq α] (m : List (α × ℚ)) (k : α) (v : ℚ) (q : α) :
    q ∈ keysOf (dictAdd m k v) ↔ q ∈ keysOf m ∨ q = k := by
  induction m with
  | nil => simp [dictAdd, keysOf]
  | cons p rest ih =>
    obtain ⟨k2, v2⟩ := p
    by_cases h : k2 = k
    · subst h
      simp only [dictAdd, if_pos rfl, keysOf, List.map, List.mem_cons]
      constructor
      · intro h1
        rcases h1 with h1 | h1
        · exact Or.inl (Or.inl h1)
        · exact Or.inl (Or.inr h1)
      · intro h1
        rcases h1 with (h1 | h1) | h1
        · exact Or.inl h1
        · exact Or.inr h1
        · exact Or.inl h1
    · simp only [dictAdd, if_neg h, keysOf, List.map, List.mem_cons] at *
      rw [ih]
      tauto

theorem keysOf_dictAdd_nodup [DecidableEq α] (m : List (α × ℚ)) (k : α) (v : ℚ)
    (h : (keysOf m).Nodup) : (keysOf (dictAdd m k v)).Nodup := by
  induction m with
  | nil => simp [dictAdd, keysOf]
  | cons p rest ih =>
    obtain ⟨k2, v2⟩ := p
    simp only [keysOf, List.map, List.nodup_cons] at h
    by_cases hk : k2 = k
    · subst hk
      simpa [dictAdd, keysOf, List.nodup_cons] using h
    · simp only [dictAdd, if_neg hk, keysOf, List.map, List.nodup_cons]
      refine ⟨?_, ih h.2⟩
      intro hmem
      rcases (keysOf_dictAdd_mem rest k v k2).mp hmem with h1 | h1
      · exact h.1 h1
      · exact hk h1

theorem dget_eq_zero_of_not_mem [DecidableEq α] (m : List (α × ℚ)) (q : α)
    (h : q ∉ keysOf m) : dget m q = 0 := by
  induction m with
  | nil => rfl
  | cons p rest ih =>
    obtain ⟨k2, v2⟩ := p
    simp only [keysOf, List.map_cons, List.mem_cons, not_or] at h
    have hne : k2 ≠ q := fun he => h.1 he.symm
    simp only [dget, if_neg hne]
    exact ih h.2

theorem mem_dget [DecidableEq α] (m : List (α × ℚ)) (c : α) (s : ℚ)
    (hn : (keysOf m).Nodup) (h : (c, s) ∈ m) : s = dget m c := by
  induction m with
  | nil => simp at h
  | cons p rest ih =>
    obtain ⟨k2, v2⟩ := p
    simp only [keysOf, List.map, List.nodup_cons] at hn
    rcases List.mem_cons.mp h with h1 | h1
    · have hc : k2 = c := (Prod.ext_iff.mp h1.symm).1
      have hv : v2 = s := (Prod.ext_iff.mp h1.symm).2
      simp [dget, hc, hv]
    · have hne : k2 ≠ c := by
        intro he
        subst he
        exact hn.1 (List.mem_map.mpr ⟨(k2, s), h1, rfl⟩)
      simp only [dget, if_neg hne]
      exact ih hn.2 h1

/-! ### core/indexes.py lemmas -/

theorem truthyS_some_ne (s : String) (h : s ≠ "") : truthyS (some s) = true := by
  simp [truthyS, h]

theorem truthyS_some_empty : truthyS (some "") = false := by
  simp [truthyS]

/-! ### Claim theorems: canonical date resolution -/

/-- C1: For every transaction record, the resolved canonical timestamp (the
`dt_iso` stored in the node metadata) equals `transactionDateTime` when that
field is present (a non-empty string), otherwise `postingDateTime` (when that
is present), otherwise nothing; `authDateTime` neither influences the
resolution for any combination of the three fields nor can it furnish the
resolved value except by coinciding with one of the other two fields. -/
theorem canonical_date_resolution (r : TxRecord) :
    (buildTxNode r).dt_iso = canonical_dt_iso r ∧
    (∀ s, r.transactionDateTime = some s → s ≠ "" → canonical_dt_iso r = some s) ∧
    ((r.transactionDateTime = none ∨ r.transactionDateTime = some "") →
      (∀ s, r.postingDateTime = some s → s ≠ "" → canonical_dt_iso r = some s) ∧
      ((r.postingDateTime = none ∨ r.postingDateTime = some "") →
        canonical_dt_iso r = none)) ∧
    (∀ a a2, canonical_dt_iso { r with authDateTime := a }
      = canonical_dt_iso { r with authDateTime := a2 }) ∧
    (∀ s, canonical_dt_iso r = some s →
      r.transactionDateTime = some s ∨ r.postingDateTime = some s) := by
  refine ⟨rfl, ?_, ?_, ?_, ?_⟩
  · intro s hs hne
    simp [canonical_dt_iso, _first, hs, truthyS_some_ne s hne]
  · intro htx
    have h1 : truthyS r.transactionDateTime = false := by
      rcases htx with h | h <;> simp [h, truthyS]
    constructor
    · intro s hs hne
      simp [canonical_dt_iso, _first, h1, hs, truthyS_some_ne s hne]
    · intro hpost
      have h2 : truthyS r.postingDateTime = false := by
        rcases hpost with h | h <;> simp [h, truthyS]
      simp [canonical_dt_iso, _first, h1, h2]
  · intro a a2
    rfl
  · intro s hs
    simp only [canonical_dt_iso, _first] at hs
    by_cases h1 : truthyS r.transactionDateTime = true
    · rw [if_pos h1] at hs
      exact Or.inl hs
    · rw [if_neg h1] at hs
      by_cases h2 : truthyS r.postingDateTime = true
      · rw [if_pos h2] at hs
        exact Or.inr hs
      · rw [if_neg h2] at hs
        exact absurd hs (by simp)

/-- Witness for C1 at a concrete record carrying all three date fields. -/
theorem canonical_date_resolution_witness :
    canonical_dt_iso
      { transactionDateTime := some "2024-09-05T10:00:00Z",
        postingDateTime := some "2024-09-03T00:00:00Z",
        authDateTime := some "2024-09-01T00:00:00Z" } = some "2024-09-05T10:00:00Z" :=
  (canonical_date_resolution
    { transactionDateTime := some "2024-09-05T10:00:00Z",
      postingDateTime := some "2024-09-03T00:00:00Z",
      authDateTime := some "2024-09-01T00:00:00Z" }).2.1
    "2024-09-05T10:00:00Z" rfl (by decide)

/-! ### Spend filter lemmas -/

theorem spendKeep_iff (now : DateTime) (n : TNode) :
    spendKeep now n = true ↔
      (n.kind ≠ "transaction" ∨
        (n.spend_candidate = true ∧
          ∃ s p, n.dt_iso = some s ∧ s ≠ "" ∧ parseIso s = some p ∧
            toEpochSec (monthStart now) ≤ p.2 ∧ p.2 ≤ toEpochSec now)) := by
  by_cases hk : n.kind = "transaction"
  · simp only [spendKeep, hk, bne_self_eq_false, Bool.false_eq_true, if_false, ne_eq,
      not_true_eq_false, false_or]
    cases hsc : n.spend_candidate with
    | false =>
      simp only [Bool.not_false, if_true, Bool.false_eq_true, false_and, iff_false,
        not_false_eq_true]
    | true =>
      simp only [Bool.not_true, Bool.false_eq_true, if_false, true_and]
      cases hdt : n.dt_iso with
      | none => simp
      | some s =>
        by_cases hs : s = ""
        · subst hs
          simp
        · simp only [show (s == "") = false by simp [hs], Bool.false_eq_true, if_false]
          cases hp : parseIso s with
          | none => simp [hs, hp]
          | some p =>
            simp only [decide_eq_true_eq]
            constructor
            · intro hw
              exact ⟨s, p, rfl, hs, hp, hw.1, hw.2⟩
            · rintro ⟨s2, p2, he, _, hp2, hw1, hw2⟩
              obtain rfl : s = s2 := Option.some.inj he
              rw [hp] at hp2
              obtain rfl : p = p2 := Option.some.inj hp2
              exact ⟨hw1, hw2⟩
  · have hb : (n.kind != "transaction") = true := by
      simp [bne_iff_ne, hk]
    simp only [spendKeep, hb, if_true, true_iff]
    exact Or.inl hk

/-! ### Claim theorems: spend-query content filter -/

/-- C3: A chunk is in the output of the spend-query content filter iff it was
a candidate and either it is not a transaction (non-transaction chunks pass
through unfiltered) or it is a transaction whose precomputed
`spend_candidate` flag is set and whose `dt_iso` parses to an instant inside
the current-month window (first of the month through now); transactions with
a missing or unparseable date are dropped. -/
theorem spend_filter_membership (nodes : List TNode) (now : DateTime) (n : TNode) :
    n ∈ filter_spend_current_month nodes now ↔
      n ∈ nodes ∧
        (n.kind ≠ "transaction" ∨
          (n.spend_candidate = true ∧
            ∃ s p, n.dt_iso = some s ∧ s ≠ "" ∧ parseIso s = some p ∧
              toEpochSec (monthStart now) ≤ p.2 ∧ p.2 ≤ toEpochSec now)) := by
  rw [filter_spend_current_month, List.mem_filter, spendKeep_iff]

/-- Witness for C3: a spend-candidate September transaction passes the filter
when now is 2024-09-20 (instantiating the characterization). -/
theorem spend_filter_membership_witness :
    ({ kind := "transaction", spend_candidate := true,
       dt_iso := some "2024-09-10T12:00:00Z" } : TNode) ∈
      filter_spend_current_month
        [{ kind := "transaction", spend_candidate := true,
           dt_iso := some "2024-09-10T12:00:00Z" }] ⟨2024, 9, 20, 0, 0, 0⟩ :=
  (spend_filter_membership
    [{ kind := "transaction", spend_candidate := true,
       dt_iso := some "2024-09-10T12:00:00Z" }]
    ⟨2024, 9, 20, 0, 0, 0⟩
    { kind := "transaction", spend_candidate := true,
      dt_iso := some "2024-09-10T12:00:00Z" }).mpr
    ⟨List.mem_cons_self _ _,
     Or.inr ⟨rfl, "2024-09-10T12:00:00Z", ((true, 1725969600) : Bool × Int), rfl,
       by decide, by decide, by decide, by decide⟩⟩

/-! ### Claim theorems: spend classification flag -/

/-- C4: The `spend_candidate` flag stored at corpus-build time is true iff
the transaction is a debit and its normalized type is not in the exclusion
set; the current-month spend filter consumes the stored flag (a transaction
surviving the filter has the flag set) and its decision reads only the node
kind, the stored flag, and the stored `dt_iso` — never the raw type or
debit fields it would need to re-derive the classification. -/
theorem spend_candidate_flag (r : TxRecord) :
    ((buildTxNode r).spend_candidate = true ↔
      (is_debit r = true ∧ dtype r ∉ EXCLUDE_TYPES)) ∧
    (∀ now nodes, ∀ n ∈ filter_spend_current_month nodes now,
      n.kind = "transaction" → n.spend_candidate = true) ∧
    (∀ now (n n2 : TNode), n.kind = n2.kind → n.spend_candidate = n2.spend_candidate →
      n.dt_iso = n2.dt_iso → spendKeep now n = spendKeep now n2) := by
  refine ⟨?_, ?_, ?_⟩
  · show is_spend_candidate r = true ↔ _
    simp only [is_spend_candidate, Bool.and_eq_true, Bool.not_eq_true']
    constructor
    · rintro ⟨h1, h2⟩
      refine ⟨h1, fun hmem => ?_⟩
      rw [Bool.eq_false_iff] at h2
      exact h2 (List.elem_iff.mpr hmem)
    · rintro ⟨h1, h2⟩
      refine ⟨h1, ?_⟩
      rw [Bool.eq_false_iff]
      intro hc
      exact h2 (List.elem_iff.mp hc)
  · intro now nodes n hn hk
    have h1 := (List.mem_filter.mp hn).2
    rw [spendKeep_iff] at h1
    rcases h1 with h1 | h1
    · exact absurd hk h1
    · exact h1.1
  · intro now n n2 h1 h2 h3
    simp only [spendKeep, h1, h2, h3]

/-- Witness for C4 at a concrete purchase record and a concrete filter run. -/
theorem spend_candidate_flag_witness :
    ((buildTxNode { transactionType := some "PURCHASE" }).spend_candidate = true ↔
      (is_debit ({ transactionType := some "PURCHASE" } : TxRecord) = true ∧
        dtype ({ transactionType := some "PURCHASE" } : TxRecord) ∉ EXCLUDE_TYPES)) ∧
    ({ kind := "transaction", spend_candidate := true,
       dt_iso := some "2024-09-10T12:00:00Z" } : TNode).spend_candidate = true :=
  ⟨(spend_candidate_flag { transactionType := some "PURCHASE" }).1,
   (spend_candidate_flag { transactionType := some "PURCHASE" }).2.1
     ⟨2024, 9, 20, 0, 0, 0⟩
     [{ kind := "transaction", spend_candidate := true,
        dt_iso := some "2024-09-10T12:00:00Z" }]
     { kind := "transaction", spend_candidate := true,
       dt_iso := some "2024-09-10T12:00:00Z" }
     (by decide) rfl⟩

/-! ### Claim theorems: default time-window inference -/

/-- C5: A query judged to be about spend or top merchants whose text contains
none of the fixed timeframe words gets the current-calendar-month scope: the
app routes its candidates through `filter_spend_current_month` (first of the
month through now), and the query handed to the generation step carries the
explicit current-calendar-month instruction. -/
theorem default_window_inference (q : String)
    (h1 : is_spend_query q = true) (h2 : _mentions_timeframe q = false) :
    (∀ nodes now, app_candidates q nodes now = filter_spend_current_month nodes now) ∧
    app_query_for_llm q = q ++ " (assume current calendar month)" := by
  constructor
  · intro nodes now
    simp [app_candidates, h1]
  · simp [app_query_for_llm, h1, h2]

/-- Witness for C5 at the spec's example query. -/
theorem default_window_inference_witness :
    app_candidates "where did I spend most"
        [{ kind := "transaction", spend_candidate := true,
           dt_iso := some "2024-09-10T12:00:00Z" }] ⟨2024, 9, 20, 0, 0, 0⟩
      = filter_spend_current_month
          [{ kind := "transaction", spend_candidate := true,
             dt_iso := some "2024-09-10T12:00:00Z" }] ⟨2024, 9, 20, 0, 0, 0⟩ ∧
    app_query_for_llm "where did I spend most"
      = "where did I spend most" ++ " (assume current calendar month)" :=
  ⟨(default_window_inference "where did I spend most" (by decide) (by decide)).1
     [{ kind := "transaction", spend_candidate := true,
        dt_iso := some "2024-09-10T12:00:00Z" }] ⟨2024, 9, 20, 0, 0, 0⟩,
   (default_window_inference "where did I spend most" (by decide) (by decide)).2⟩

/-! ### Claim theorems: freshness weighting -/

/-- C6 (code-bug evidence): the freshness weight follows the claimed contract
on every path except one.  With `lam = 0` the weight is 1 for any `dt_iso`;
with a missing or unparseable `dt_iso` the weight is 1 for any `lam`; for an
offset-carrying (aware) timestamp the weight is
`max(0.2, exp(-lam * age_days))`.  But for a `dt_iso` that
`datetime.fromisoformat` parses as a NAIVE timestamp (no UTC offset, e.g.
"2024-09-05T10:00:00") and any `lam > 0`, the Python function raises
`TypeError` on `datetime.now(timezone.utc) - dt` instead of returning the
claimed weight — modelled here by `none`. -/
theorem freshness_weight_contract_and_naive_crash :
    _parse_dt (some "2024-09-05T10:00:00") = some (false, 1725530400) ∧
    _freshness_weight (some "2024-09-05T10:00:00") (1 / 100) 1726000000 = none ∧
    _freshness_weight (some "2024-09-05T10:00:00") 0 1726000000 = some 1 ∧
    _freshness_weight none (1 / 100) 1726000000 = some 1 ∧
    _freshness_weight (some "not a date") (1 / 100) 1726000000 = some 1 ∧
    _freshness_weight (some "2024-09-05T10:00:00Z") (1 / 100) 1726000000
      = some (max (1 / 5)
          (Real.exp (-((((1 : ℚ) / 100 : ℚ) : ℝ)
            * (((1726000000 - 1725530400 : Int) : ℝ) / 86400))))) := by
  have hc1 : ¬ (truthyS (some "2024-09-05T10:00:00") = false ∨ (1 : ℚ) / 100 ≤ 0) := by
    push_neg
    exact ⟨by decide, by norm_num⟩
  have hc2 : ¬ (truthyS (some "not a date") = false ∨ (1 : ℚ) / 100 ≤ 0) := by
    push_neg
    exact ⟨by decide, by norm_num⟩
  have hc3 : ¬ (truthyS (some "2024-09-05T10:00:00Z") = false ∨ (1 : ℚ) / 100 ≤ 0) := by
    push_neg
    exact ⟨by decide, by norm_num⟩
  have hp1 : _parse_dt (some "2024-09-05T10:00:00") = some (false, 1725530400) := by decide
  have hp2 : _parse_dt (some "not a date") = none := by decide
  have hp3 : _parse_dt (some "2024-09-05T10:00:00Z") = some (true, 1725530400) := by decide
  refine ⟨hp1, ?_, ?_, ?_, ?_, ?_⟩
  · rw [_freshness_weight, if_neg hc1, hp1]
    rfl
  · rw [_freshness_weight, if_pos (Or.inr (le_refl (0 : ℚ)))]
  · rw [_freshness_weight, if_pos (Or.inl (by decide))]
  · rw [_freshness_weight, if_neg hc2, hp2]
  · rw [_freshness_weight, if_neg hc3, hp3]
    rfl

/-! ### Text-chunking lemmas -/

theorem chunkLoop_ne_nil (cs : List Char) (size ov : Nat) (hov : ov < size) (start : Nat)
    (h : start < cs.length) : chunkLoop cs size ov hov start ≠ [] := by
  rw [chunkLoop, dif_pos h]
  by_cases he : min (start + size) cs.length = cs.length
  · rw [dif_pos he]
    simp
  · rw [dif_neg he]
    simp

theorem chunkLoop_length_le (cs : List Char) (size ov : Nat) (hov : ov < size) (start : Nat) :
    ∀ c ∈ chunkLoop cs size ov hov start, c.length ≤ size := by
  intro c hc
  rw [chunkLoop] at hc
  by_cases h : start < cs.length
  · rw [dif_pos h] at hc
    by_cases he : min (start + size) cs.length = cs.length
    · rw [dif_pos he] at hc
      simp only [List.mem_singleton] at hc
      subst hc
      show ((cs.drop start).take size).length ≤ size
      simp [List.length_take]
    · rw [dif_neg he] at hc
      rcases List.mem_cons.mp hc with h1 | h1
      · subst h1
        show ((cs.drop start).take size).length ≤ size
        simp [List.length_take]
      · exact chunkLoop_length_le cs size ov hov _ c h1
  · rw [dif_neg h] at hc
    simp at hc
termination_by cs.length - start
decreasing_by
  have hlt : start + size < cs.length := by
    rcases Nat.lt_or_ge (start + size) cs.length with h1 | h1
    · exact h1
    · exact absurd (Nat.min_eq_right h1) he
  rw [Nat.min_eq_left (Nat.le_of_lt hlt)]
  omega

theorem chunkLoop_coverage (cs : List Char) (size ov : Nat) (hov : ov < size) (start i : Nat)
    (hi : start ≤ i) (hin : i < cs.length) :
    ∃ st, String.mk ((cs.drop st).take size) ∈ chunkLoop cs size ov hov start ∧
      st ≤ i ∧ i < st + min size (cs.length - st) := by
  have h : start < cs.length := Nat.lt_of_le_of_lt hi hin
  rw [chunkLoop, dif_pos h]
  by_cases he : min (start + size) cs.length = cs.length
  · rw [dif_pos he]
    refine ⟨start, by simp, hi, ?_⟩
    have h2 : cs.length ≤ start + size := by
      rcases Nat.lt_or_ge (start + size) cs.length with h1 | h1
      · rw [Nat.min_eq_left (Nat.le_of_lt h1)] at he
        omega
      · exact h1
    rw [Nat.min_eq_right (by omega : cs.length - start ≤ size)]
    omega
  · have hlt : start + size < cs.length := by
      rcases Nat.lt_or_ge (start + size) cs.length with h1 | h1
      · exact h1
      · exact absurd (Nat.min_eq_right h1) he
    rw [dif_neg he, Nat.min_eq_left (Nat.le_of_lt hlt)]
    by_cases hie : i < start + size
    · refine ⟨start, List.mem_cons_self _ _, hi, ?_⟩
      rw [Nat.min_eq_left (by omega : size ≤ cs.length - start)]
      omega
    · obtain ⟨st, hmem, hle, hlt2⟩ :=
        chunkLoop_coverage cs size ov hov (start + size - ov) i (by omega) hin
      exact ⟨st, List.mem_cons.mpr (Or.inr hmem), hle, hlt2⟩
termination_by cs.length - start
decreasing_by omega

theorem string_ne_empty_data (t : String) (h : t ≠ "") : 0 < t.data.length := by
  cases hd : t.data with
  | nil =>
    exfalso
    apply h
    apply String.ext
    rw [hd]
  | cons a l => simp

/-! ### Claim theorems: agreement text splitter -/

/-- C10: For `0 ≤ overlap < chunk_size` the splitter terminates (it is a total
function of its inputs), returns the empty list exactly when the
whitespace-normalized input is empty, every returned chunk has length at most
`chunk_size`, and every character position of the normalized input is covered
by at least one returned chunk (each chunk being the slice of the normalized
text starting at its window offset). -/
theorem chunk_text_spec (s : String) (size ov : Nat) (hov : ov < size) :
    (chunk_text s size ov hov = [] ↔ normalize_ws s = "") ∧
    (∀ c ∈ chunk_text s size ov hov, c.length ≤ size) ∧
    (∀ i, i < (normalize_ws s).length → ∃ st,
      String.mk (((normalize_ws s).data.drop st).take size) ∈ chunk_text s size ov hov ∧
      st ≤ i ∧ i < st + min size ((normalize_ws s).length - st)) := by
  refine ⟨⟨?_, ?_⟩, ?_, ?_⟩
  · intro h
    by_contra hne
    rw [chunk_text] at h
    simp only [if_neg hne] at h
    exact chunkLoop_ne_nil _ size ov hov 0 (string_ne_empty_data _ hne) h
  · intro h
    rw [chunk_text]
    simp only [if_pos h]
  · intro c hc
    rw [chunk_text] at hc
    by_cases ht : normalize_ws s = ""
    · simp only [if_pos ht] at hc
      simp at hc
    · simp only [if_neg ht] at hc
      exact chunkLoop_length_le _ size ov hov 0 c hc
  · intro i hi
    have ht : normalize_ws s ≠ "" := by
      intro h
      rw [h] at hi
      simp at hi
    rw [chunk_text]
    simp only [if_neg ht]
    exact chunkLoop_coverage _ size ov hov 0 i (Nat.zero_le i) hi

/-- Witness for C10 at the default parameters on a concrete string. -/
theorem chunk_text_spec_witness :
    (chunk_text "hello world" 1000 200 (by decide) = [] ↔
      normalize_ws "hello world" = "") ∧
    (chunk_text "  " 1000 200 (by decide) = [] ↔ normalize_ws "  " = "") :=
  ⟨(chunk_text_spec "hello world" 1000 200 (by decide)).1,
   (chunk_text_spec "  " 1000 200 (by decide)).1⟩

/-! ### Dict-fold lemmas -/

theorem dget_cons_ne [DecidableEq α] (k0 q : α) (v0 : ℚ) (rest : List (α × ℚ))
    (h : k0 ≠ q) : dget ((k0, v0) :: rest) q = dget rest q := by
  simp [dget, h]

theorem dget_fold [DecidableEq α] (w : ℚ) (ps : List (α × ℚ)) (m : List (α × ℚ)) (q : α)
    (hnod : (keysOf ps).Nodup) :
    dget (ps.foldl (fun acc p => dictAdd acc p.1 (w * p.2)) m) q
      = dget m q + w * dget ps q := by
  induction ps generalizing m with
  | nil => simp [dget]
  | cons p0 rest ih =>
    obtain ⟨k0, v0⟩ := p0
    simp only [keysOf, List.map_cons, List.nodup_cons] at hnod
    simp only [List.foldl_cons]
    rw [ih (dictAdd m k0 (w * v0)) hnod.2]
    by_cases hq : q = k0
    · subst hq
      rw [dget_dictAdd_same]
      have h0 : dget rest q = 0 := by
        apply dget_eq_zero_of_not_mem
        exact hnod.1
      rw [h0]
      have hvv : dget ((q, v0) :: rest) q = v0 := by simp [dget]
      rw [hvv]
      ring
    · rw [dget_dictAdd_other m k0 q (w * v0) hq]
      rw [dget_cons_ne k0 q v0 rest (fun he => hq he.symm)]

theorem keysOf_fold_mem [DecidableEq α] (w : ℚ) (ps m : List (α × ℚ)) (q : α) :
    q ∈ keysOf (ps.foldl (fun acc p => dictAdd acc p.1 (w * p.2)) m) ↔
      q ∈ keysOf m ∨ q ∈ keysOf ps := by
  induction ps generalizing m with
  | nil => simp [keysOf]
  | cons p0 rest ih =>
    simp only [List.foldl_cons]
    rw [ih]
    rw [keysOf_dictAdd_mem]
    simp only [keysOf, List.map_cons, List.mem_cons]
    tauto

theorem keysOf_fold_nodup [DecidableEq α] (w : ℚ) (ps m : List (α × ℚ))
    (h : (keysOf m).Nodup) :
    (keysOf (ps.foldl (fun acc p => dictAdd acc p.1 (w * p.2)) m)).Nodup := by
  induction ps generalizing m with
  | nil => exact h
  | cons p0 rest ih =>
    simp only [List.foldl_cons]
    exact ih _ (keysOf_dictAdd_nodup m p0.1 (w * p0.2) h)

theorem dictAdd_not_mem [DecidableEq α] (m : List (α × ℚ)) (k : α) (v : ℚ)
    (h : k ∉ keysOf m) : dictAdd m k v = m ++ [(k, v)] := by
  induction m with
  | nil => rfl
  | cons p rest ih =>
    obtain ⟨k2, v2⟩ := p
    simp only [keysOf, List.map_cons, List.mem_cons, not_or] at h
    simp only [dictAdd, if_neg (fun he : k2 = k => h.1 he.symm), List.cons_append,
      List.cons.injEq, true_and]
    exact ih h.2

theorem fold_of_disjoint [DecidableEq α] (w : ℚ) (ps m : List (α × ℚ))
    (hnod : (keysOf ps).Nodup) (hdisj : ∀ q ∈ keysOf ps, q ∉ keysOf m) :
    ps.foldl (fun acc p => dictAdd acc p.1 (w * p.2)) m
      = m ++ ps.map (fun p => (p.1, w * p.2)) := by
  induction ps generalizing m with
  | nil => simp
  | cons p0 rest ih =>
    obtain ⟨k0, v0⟩ := p0
    simp only [keysOf, List.map_cons, List.nodup_cons] at hnod
    simp only [List.foldl_cons, List.map_cons]
    rw [dictAdd_not_mem m k0 (w * v0) (hdisj k0 (by simp [keysOf]))]
    have hdisj2 : ∀ q ∈ keysOf rest, q ∉ keysOf (m ++ [(k0, w * v0)]) := by
      intro q hq
      simp only [keysOf, List.map_append, List.mem_append, List.map_cons, List.map_nil,
        List.mem_singleton, not_or]
      constructor
      · exact hdisj q (by simp only [keysOf, List.map_cons, List.mem_cons]; exact Or.inr hq)
      · intro he
        exact hnod.1 (he ▸ hq)
    rw [ih (m ++ [(k0, w * v0)]) hnod.2 hdisj2]
    simp

/-! ### Claim theorems: hybrid merge combination -/

/-- C2: For result lists whose entries are pairwise-distinct chunks and any
`alpha`, the hybrid merge (i) min-max normalizes each list independently,
with an all-equal score list collapsing to 0.0 everywhere; (ii) assigns every
returned chunk the score
`alpha * normalized_vector_score + (1 - alpha) * normalized_lexical_score`,
a chunk absent from one list contributing 0 for that term; (iii) returns the
chunks sorted descending by that combined score, truncated to `k`: the output
length is `min k` the number of distinct candidate chunks, every output chunk
comes from one of the two lists, and when `k` is large enough every candidate
chunk appears. -/
theorem hybrid_merge_spec [DecidableEq α] (vec lex : List (α × ℚ)) (alpha : ℚ) (k : Nat)
    (hv : (keysOf vec).Nodup) (hl : (keysOf lex).Nodup)
    (h0 : 0 ≤ alpha) (h1 : alpha ≤ 1) :
    (∀ (x : ℚ) (sc : List ℚ), (∀ y ∈ sc, y = x) → _normalize sc = sc.map fun _ => 0) ∧
    (∀ c s, (c, s) ∈ hybrid_merge vec lex alpha k →
      s = alpha * normScore vec c + (1 - alpha) * normScore lex c) ∧
    (∀ c, c ∉ keysOf vec → normScore vec c = 0) ∧
    (∀ c, c ∉ keysOf lex → normScore lex c = 0) ∧
    (hybrid_merge vec lex alpha k).Pairwise (fun a b => b.2 ≤ a.2) ∧
    (hybrid_merge vec lex alpha k).length = min k (keysOf vec ++ keysOf lex).toFinset.card ∧
    (∀ c, c ∈ keysOf (hybrid_merge vec lex alpha k) → c ∈ keysOf vec ++ keysOf lex) ∧
    ((keysOf vec ++ keysOf lex).toFinset.card ≤ k →
      ∀ c ∈ keysOf vec ++ keysOf lex, c ∈ keysOf (hybrid_merge vec lex alpha k)) := by
  have hzv_len : (vec.map Prod.fst).length ≤ (_normalize (vec.map Prod.snd)).length := by
    rw [normalize_length]
    simp
  have hzl_len : (lex.map Prod.fst).length ≤ (_normalize (lex.map Prod.snd)).length := by
    rw [normalize_length]
    simp
  have hkv : keysOf ((vec.map Prod.fst).zip (_normalize (vec.map Prod.snd)))
      = vec.map Prod.fst := List.map_fst_zip _ _ hzv_len
  have hkl : keysOf ((lex.map Prod.fst).zip (_normalize (lex.map Prod.snd)))
      = lex.map Prod.fst := List.map_fst_zip _ _ hzl_len
  have hnzv : (keysOf ((vec.map Prod.fst).zip (_normalize (vec.map Prod.snd)))).Nodup := by
    rw [hkv]
    exact hv
  have hnzl : (keysOf ((lex.map Prod.fst).zip (_normalize (lex.map Prod.snd)))).Nodup := by
    rw [hkl]
    exact hl
  set zv := (vec.map Prod.fst).zip (_normalize (vec.map Prod.snd)) with hzv
  set zl := (lex.map Prod.fst).zip (_normalize (lex.map Prod.snd)) with hzl
  set m1 := zv.foldl (fun m p => dictAdd m p.1 (alpha * p.2)) ([] : List (α × ℚ)) with hm1
  set m2 := zl.foldl (fun m p => dictAdd m p.1 ((1 - alpha) * p.2)) m1 with hm2
  have hout : hybrid_merge vec lex alpha k = (sortS scoreDescLe m2).take k := rfl
  have hm2mem : ∀ q, q ∈ keysOf m2 ↔ q ∈ keysOf vec ++ keysOf lex := by
    intro q
    rw [hm2, keysOf_fold_mem, hm1, keysOf_fold_mem, hkv, hkl]
    simp only [keysOf, List.map_nil, List.not_mem_nil, false_or, List.mem_append]
  have hm2nodup : (keysOf m2).Nodup := by
    rw [hm2, hm1]
    exact keysOf_fold_nodup _ _ _ (keysOf_fold_nodup _ _ _ (by simp [keysOf]))
  have hdget : ∀ q, dget m2 q = alpha * normScore vec q + (1 - alpha) * normScore lex q := by
    intro q
    rw [hm2, dget_fold _ _ _ _ hnzl, hm1, dget_fold _ _ _ _ hnzv]
    show dget ([] : List (α × ℚ)) q + _ + _ = _
    rw [show dget ([] : List (α × ℚ)) q = 0 from rfl]
    rw [zero_add]
    rfl
  have hsorted := sortS_pairwise scoreDescLe scoreDescLe_total scoreDescLe_trans m2
  have hm2len : (sortS scoreDescLe m2).length = (keysOf vec ++ keysOf lex).toFinset.card := by
    have h4 : (keysOf m2).toFinset = (keysOf vec ++ keysOf lex).toFinset := by
      apply Finset.ext
      intro q
      simp only [List.mem_toFinset]
      exact hm2mem q
    calc (sortS scoreDescLe m2).length
        = m2.length := (sortS_perm scoreDescLe m2).length_eq
      _ = (keysOf m2).length := by simp [keysOf]
      _ = (keysOf m2).toFinset.card := (List.toFinset_card_of_nodup hm2nodup).symm
      _ = (keysOf vec ++ keysOf lex).toFinset.card := by rw [h4]
  refine ⟨fun x sc h => normalize_const x sc h, ?_, ?_, ?_, ?_, ?_, ?_, ?_⟩
  · intro c s hmem
    rw [hout] at hmem
    have h2 : (c, s) ∈ sortS scoreDescLe m2 := List.mem_of_mem_take hmem
    have h3 : (c, s) ∈ m2 := (sortS_perm scoreDescLe m2).mem_iff.mp h2
    rw [mem_dget m2 c s hm2nodup h3]
    exact hdget c
  · intro c hc
    show dget zv c = 0
    apply dget_eq_zero_of_not_mem
    rw [hkv]
    exact hc
  · intro c hc
    show dget zl c = 0
    apply dget_eq_zero_of_not_mem
    rw [hkl]
    exact hc
  · rw [hout]
    exact ((hsorted.sublist (List.take_sublist k _)).imp
      fun h => of_decide_eq_true h)
  · rw [hout, List.length_take, hm2len]
  · intro c hc
    rw [hout] at hc
    obtain ⟨⟨c2, s⟩, hp, he⟩ := List.mem_map.mp hc
    subst he
    have h2 : (c2, s) ∈ m2 :=
      (sortS_perm scoreDescLe m2).mem_iff.mp (List.mem_of_mem_take hp)
    exact (hm2mem c2).mp (List.mem_map.mpr ⟨(c2, s), h2, rfl⟩)
  · intro hk c hc
    have h2 : c ∈ keysOf m2 := (hm2mem c).mpr hc
    obtain ⟨⟨c2, s⟩, hp, he⟩ := List.mem_map.mp h2
    subst he
    have h3 : (c2, s) ∈ sortS scoreDescLe m2 := (sortS_perm scoreDescLe m2).mem_iff.mpr hp
    have h4 : (sortS scoreDescLe m2).take k = sortS scoreDescLe m2 :=
      List.take_of_length_le (by rw [hm2len]; exact hk)
    rw [hout, h4]
    exact List.mem_map.mpr ⟨(c2, s), h3, rfl⟩

/-- Witness for C2 at concrete result lists with overlapping chunks. -/
theorem hybrid_merge_spec_witness :
    (hybrid_merge [((0 : Nat), (2 : ℚ)), (1, 5)] [(1, 3)] (1 / 2) 2).Pairwise
      (fun a b => b.2 ≤ a.2) :=
  (hybrid_merge_spec [((0 : Nat), (2 : ℚ)), (1, 5)] [(1, 3)] (1 / 2) 2
    (by decide) (by decide) (by norm_num) (by norm_num)).2.2.2.2.1

/-! ### Claim theorems: pure-semantic degeneracy -/

/-- C8 (amended): for result lists with pairwise-distinct chunks and
`alpha` in `(0, 1]`, merging with an empty lexical list returns exactly the
top-`k` of the vector results ranked by normalized score, each score scaled
by `alpha`; at `alpha = 0` the combined scores all collapse to 0 and the
stable sort keeps the input order instead of the normalized-score order (see
the counterexample). -/
theorem hybrid_merge_pure_vector [DecidableEq α] (vec : List (α × ℚ)) (alpha : ℚ) (k : Nat)
    (hv : (keysOf vec).Nodup) (h0 : 0 < alpha) (h1 : alpha ≤ 1) :
    hybrid_merge vec [] alpha k
      = (topkByNormalized vec k).map fun p => (p.1, alpha * p.2) := by
  have hzv_len : (vec.map Prod.fst).length ≤ (_normalize (vec.map Prod.snd)).length := by
    rw [normalize_length]
    simp
  have hkv : keysOf ((vec.map Prod.fst).zip (_normalize (vec.map Prod.snd)))
      = vec.map Prod.fst := List.map_fst_zip _ _ hzv_len
  have hnzv : (keysOf ((vec.map Prod.fst).zip (_normalize (vec.map Prod.snd)))).Nodup := by
    rw [hkv]
    exact hv
  have hf : ∀ a b : α × ℚ,
      scoreDescLe ((fun p : α × ℚ => (p.1, alpha * p.2)) a)
        ((fun p : α × ℚ => (p.1, alpha * p.2)) b) = scoreDescLe a b := by
    intro a b
    simp only [scoreDescLe]
    exact decide_eq_decide.mpr (mul_le_mul_left h0)
  have hm1 : ((vec.map Prod.fst).zip (_normalize (vec.map Prod.snd))).foldl
        (fun m p => dictAdd m p.1 (alpha * p.2)) []
      = ((vec.map Prod.fst).zip (_normalize (vec.map Prod.snd))).map
          (fun p => (p.1, alpha * p.2)) := by
    have h2 := fold_of_disjoint alpha
      ((vec.map Prod.fst).zip (_normalize (vec.map Prod.snd))) [] hnzv
      (by intro q hq; simp [keysOf])
    simpa using h2
  calc hybrid_merge vec [] alpha k
      = (sortS scoreDescLe (((vec.map Prod.fst).zip (_normalize (vec.map Prod.snd))).foldl
          (fun m p => dictAdd m p.1 (alpha * p.2)) [])).take k := rfl
    _ = (sortS scoreDescLe (((vec.map Prod.fst).zip (_normalize (vec.map Prod.snd))).map
          fun p => (p.1, alpha * p.2))).take k := by rw [hm1]
    _ = ((sortS scoreDescLe ((vec.map Prod.fst).zip (_normalize (vec.map Prod.snd)))).map
          fun p => (p.1, alpha * p.2)).take k := by
        rw [sortS_map scoreDescLe scoreDescLe (fun p => (p.1, alpha * p.2)) hf]
    _ = ((sortS scoreDescLe ((vec.map Prod.fst).zip (_normalize (vec.map Prod.snd)))).take
          k).map (fun p => (p.1, alpha * p.2)) := by rw [List.map_take]
    _ = (topkByNormalized vec k).map fun p => (p.1, alpha * p.2) := rfl

/-- Counterexample for C8 as stated: at `alpha = 0` the merge output is NOT
the top-`k` by normalized score — all combined scores are 0 and the stable
sort preserves input order, so the lowest-scored chunk stays first. -/
theorem hybrid_merge_pure_vector_cex :
    hybrid_merge [((0 : Nat), (0 : ℚ)), (1, 1)] [] 0 2
      ≠ topkByNormalized [((0 : Nat), (0 : ℚ)), (1, 1)] 2 := by
  have hL : hybrid_merge [((0 : Nat), (0 : ℚ)), (1, 1)] [] 0 2 = [(0, 0), (1, 0)] := by
    norm_num [hybrid_merge, _normalize, dictAdd, sortS, insertS, scoreDescLe]
  have hR : topkByNormalized [((0 : Nat), (0 : ℚ)), (1, 1)] 2 = [(1, 1), (0, 0)] := by
    norm_num [topkByNormalized, _normalize, sortS, insertS, scoreDescLe]
  rw [hL, hR]
  intro hcon
  have h2 := congrArg (fun l => l.map Prod.fst) hcon
  simp at h2

/-- Witness for C8 (amended) at a concrete vector result list. -/
theorem hybrid_merge_pure_vector_witness :
    hybrid_merge [((0 : Nat), (2 : ℚ)), (1, 5)] [] (1 / 2) 2
      = (topkByNormalized [((0 : Nat), (2 : ℚ)), (1, 5)] 2).map
          fun p => (p.1, (1 / 2 : ℚ) * p.2) :=
  hybrid_merge_pure_vector [((0 : Nat), (2 : ℚ)), (1, 5)] (1 / 2) 2
    (by decide) (by norm_num) (by norm_num)

/-! ### Reranker lemmas -/

theorem pairwise_of_forall_rel (R : α → α → Prop) (h : ∀ a b, R a b) (l : List α) :
    l.Pairwise R := by
  induction l with
  | nil => exact List.Pairwise.nil
  | cons a t ih => exact List.Pairwise.cons (fun b _ => h a b) ih

theorem chunksOf_flatten (batch : Nat) (l : List α) :
    (chunksOf batch l).flatten = l := by
  match l with
  | [] => simp [chunksOf]
  | x :: xs =>
    rw [chunksOf]
    simp only [List.flatten_cons]
    rw [chunksOf_flatten batch (xs.drop (batch - 1))]
    simp [List.take_append_drop]
termination_by l.length
decreasing_by simp only [List.length_drop, List.length_cons]; omega

theorem scoreBatch_map_fst_malformed (items : List α) :
    (scoreBatch items JudgeResp.malformed).map Prod.fst = items := by
  simp only [scoreBatch, List.map_map]
  have h2 : (Prod.fst ∘ fun c : α => (c, (0 : ℚ))) = id := rfl
  rw [h2, List.map_id]

theorem scoreBatch_map_fst_scores (items : List α) (js : List (Option ℚ))
    (h : items.length ≤ js.length) :
    (scoreBatch items (JudgeResp.scores js)).map Prod.fst = items := by
  simp only [scoreBatch, List.map_map]
  have h2 : (Prod.fst ∘ fun p : α × Option ℚ => (p.1, p.2.getD 0)) = Prod.fst := rfl
  rw [h2]
  exact List.map_fst_zip items js h

theorem scoreBatch_map_fst_subset (items : List α) (resp : JudgeResp) (x : α)
    (h : x ∈ (scoreBatch items resp).map Prod.fst) : x ∈ items := by
  cases resp with
  | malformed => simpa [scoreBatch] using h
  | scores js =>
    simp only [scoreBatch, List.map_map] at h
    obtain ⟨⟨a, j⟩, hm, he⟩ := List.mem_map.mp h
    have ha : a = x := he
    subst ha
    exact (List.of_mem_zip hm).1

/-! ### Claim theorems: judge-reranker degradation -/

/-- C7 (amended): for a positive batch size, when the judge reply for a batch
fails to parse, every candidate of that batch appears in the output with
score 0.0; every input candidate appears exactly once (as a multiset) in the
output PROVIDED every successfully-parsed reply carries at least as many
scores as its batch has candidates — the code zips candidates with scores
and a shorter scores list silently drops the tail of the batch (see the
counterexample); and when every batch fails to parse the output is exactly
the input candidates in their original order, each scored 0.0 (stable sort
on all-equal scores preserves order). -/
theorem rerank_with_llm_spec (q : String) (cands : List α) (batch : Nat)
    (judge : Nat → JudgeResp) (hb : 1 ≤ batch)
    (hresp : ∀ i items, (chunksOf batch cands).get? i = some items →
      judge i = JudgeResp.malformed ∨
        ∃ js, judge i = JudgeResp.scores js ∧ items.length ≤ js.length) :
    ((rerank_with_llm q cands batch judge).map Prod.fst).Perm cands ∧
    (∀ i items, (chunksOf batch cands).get? i = some items →
      judge i = JudgeResp.malformed →
      ∀ c ∈ items, (c, (0 : ℚ)) ∈ rerank_with_llm q cands batch judge) ∧
    ((∀ i, judge i = JudgeResp.malformed) →
      rerank_with_llm q cands batch judge = cands.map fun c => (c, 0)) := by
  have hout : rerank_with_llm q cands batch judge
      = sortS scoreDescLe ((chunksOf batch cands).enum.flatMap
          fun p => scoreBatch p.2 (judge p.1)) := rfl
  have henum : ∀ p ∈ (chunksOf batch cands).enum,
      (chunksOf batch cands).get? p.1 = some p.2 := by
    intro p hp
    obtain ⟨i, he⟩ := List.mem_iff_get?.mp hp
    have h2 := List.get?_enum (chunksOf batch cands) i
    rw [he] at h2
    cases hg : (chunksOf batch cands).get? i with
    | none =>
      rw [hg] at h2
      simp at h2
    | some items =>
      rw [hg] at h2
      have h3 : p = (i, items) := by simpa using h2
      rw [h3]
      exact hg
  have hpre : (((chunksOf batch cands).enum.flatMap
      fun p => scoreBatch p.2 (judge p.1)).map Prod.fst) = cands := by
    rw [List.map_flatMap]
    have hc : ∀ p ∈ (chunksOf batch cands).enum,
        (scoreBatch p.2 (judge p.1)).map Prod.fst = p.2 := by
      intro p hp
      rcases hresp p.1 p.2 (henum p hp) with h1 | ⟨js, h1, h2⟩
      · rw [h1]
        exact scoreBatch_map_fst_malformed p.2
      · rw [h1]
        exact scoreBatch_map_fst_scores p.2 js h2
    rw [List.flatMap_congr hc]
    have h3 : ((chunksOf batch cands).enum.flatMap fun p : Nat × List α => p.2)
        = ((chunksOf batch cands).enum.map Prod.snd).flatten := by
      rw [List.flatMap_def]
    rw [h3, List.enum_map_snd, chunksOf_flatten]
  refine ⟨?_, ?_, ?_⟩
  · rw [hout]
    have h5 := (sortS_perm scoreDescLe ((chunksOf batch cands).enum.flatMap
      fun p => scoreBatch p.2 (judge p.1))).map Prod.fst
    rw [hpre] at h5
    exact h5
  · intro i items hget hmal c hc
    rw [hout]
    apply (sortS_perm scoreDescLe _).mem_iff.mpr
    apply List.mem_flatMap.mpr
    refine ⟨(i, items), ?_, ?_⟩
    · have h2 := List.get?_enum (chunksOf batch cands) i
      rw [hget] at h2
      exact List.get?_mem h2
    · show (c, (0 : ℚ)) ∈ scoreBatch items (judge i)
      rw [hmal]
      simp only [scoreBatch]
      exact List.mem_map.mpr ⟨c, hc, rfl⟩
  · intro hall
    rw [hout]
    have hpre0 : ((chunksOf batch cands).enum.flatMap
        fun p => scoreBatch p.2 (judge p.1)) = cands.map fun c => (c, (0 : ℚ)) := by
      have hc : ∀ p ∈ (chunksOf batch cands).enum,
          scoreBatch p.2 (judge p.1) = p.2.map fun c => (c, (0 : ℚ)) := by
        intro p hp
        rw [hall p.1]
        rfl
      rw [List.flatMap_congr hc]
      have h3 : ((chunksOf batch cands).enum.flatMap
            fun p : Nat × List α => p.2.map fun c => (c, (0 : ℚ)))
          = (((chunksOf batch cands).enum.map Prod.snd).map
              (fun items => items.map fun c => (c, (0 : ℚ)))).flatten := by
        rw [List.flatMap_def, List.map_map]
        rfl
      rw [h3, List.enum_map_snd]
      rw [← List.map_flatten, chunksOf_flatten]
    rw [hpre0]
    apply sortS_of_pairwise
    have h4 : ∀ a b : α × ℚ, a.2 = 0 → b.2 = 0 → scoreDescLe a b = true := by
      intro a b ha hb2
      simp [scoreDescLe, ha, hb2]
    rw [List.pairwise_map]
    exact pairwise_of_forall_rel _ (fun a b => by simp [scoreDescLe]) cands

/-- Counterexample for C7 as stated: a well-formed judge reply whose scores
list is shorter than the batch silently drops the unscored tail — candidate
1 vanishes from the output. -/
theorem rerank_with_llm_drop_cex :
    (1 : Nat) ∉ (rerank_with_llm "q" [0, 1] 20
      (fun _ => JudgeResp.scores [some 1])).map Prod.fst := by
  have h : rerank_with_llm "q" [(0 : Nat), 1] 20 (fun _ => JudgeResp.scores [some 1])
      = [(0, 1)] := by
    simp [rerank_with_llm, chunksOf, scoreBatch, sortS, insertS]
  rw [h]
  decide

/-- Witness for C7 (amended): all batches malformed at a concrete input. -/
theorem rerank_with_llm_spec_witness :
    rerank_with_llm "q" [(5 : Nat), 7] 20 (fun _ => JudgeResp.malformed)
      = [(5, 0), (7, 0)] := by
  have h := (rerank_with_llm_spec "q" [(5 : Nat), 7] 20 (fun _ => JudgeResp.malformed)
    (by decide) (fun i items _ => Or.inl rfl)).2.2 (fun _ => rfl)
  rw [h]
  rfl

/-! ### Corpus and context lemmas -/

theorem mem_keysOf_of_mem (m : List (α × ℚ)) (c : α) (s : ℚ) (h : (c, s) ∈ m) :
    c ∈ keysOf m := List.mem_map.mpr ⟨(c, s), h, rfl⟩

theorem build_corpus_sources (flat : List FlatRow) (pdfText : Option String)
    (c : BChunk) (hc : c ∈ build_corpus flat pdfText) :
    c.source ∈ flat.map FlatRow.source ∨ c.source = "aggregate" ∨ c.source = "agreement" := by
  simp only [build_corpus, List.mem_append] at hc
  rcases hc with ((((h | h) | h) | h) | h)
  · obtain ⟨row, hr, he⟩ := List.mem_map.mp h
    subst he
    exact Or.inl (List.mem_map.mpr ⟨row, hr, rfl⟩)
  · obtain ⟨p, _, he⟩ := List.mem_map.mp h
    subst he
    exact Or.inr (Or.inl rfl)
  · obtain ⟨p, _, he⟩ := List.mem_map.mp h
    subst he
    exact Or.inr (Or.inl rfl)
  · cases hly : latestYm (keysOf (aggStmt flat) ++ keysOf (aggTx flat)) with
    | none =>
      rw [hly] at h
      simp at h
    | some ly =>
      rw [hly] at h
      simp only [List.mem_cons, List.not_mem_nil, or_false] at h
      rcases h with h | h | h
      all_goals subst h
      all_goals exact Or.inr (Or.inl rfl)
  · cases hp : pdfText with
    | none =>
      rw [hp] at h
      simp at h
    | some t =>
      rw [hp] at h
      obtain ⟨ch, _, he⟩ := List.mem_map.mp h
      subst he
      exact Or.inr (Or.inr rfl)

theorem hybrid_merge_mem_keys [DecidableEq α] (vec lex : List (α × ℚ)) (alpha : ℚ) (k : Nat)
    (c : α) (s : ℚ) (h : (c, s) ∈ hybrid_merge vec lex alpha k) :
    c ∈ keysOf vec ++ keysOf lex := by
  have hzv_len : (vec.map Prod.fst).length ≤ (_normalize (vec.map Prod.snd)).length := by
    rw [normalize_length]
    simp
  have hzl_len : (lex.map Prod.fst).length ≤ (_normalize (lex.map Prod.snd)).length := by
    rw [normalize_length]
    simp
  have hkv : keysOf ((vec.map Prod.fst).zip (_normalize (vec.map Prod.snd)))
      = vec.map Prod.fst := List.map_fst_zip _ _ hzv_len
  have hkl : keysOf ((lex.map Prod.fst).zip (_normalize (lex.map Prod.snd)))
      = lex.map Prod.fst := List.map_fst_zip _ _ hzl_len
  have h2 : (c, s) ∈ ((lex.map Prod.fst).zip (_normalize (lex.map Prod.snd))).foldl
      (fun m p => dictAdd m p.1 ((1 - alpha) * p.2))
      (((vec.map Prod.fst).zip (_normalize (vec.map Prod.snd))).foldl
        (fun m p => dictAdd m p.1 (alpha * p.2)) []) :=
    (sortS_perm scoreDescLe _).mem_iff.mp (List.mem_of_mem_take h)
  have h3 := mem_keysOf_of_mem _ c s h2
  rw [keysOf_fold_mem, keysOf_fold_mem, hkv, hkl] at h3
  simp only [keysOf, List.map_nil, List.not_mem_nil, false_or] at h3
  rw [List.mem_append]
  exact h3

theorem ymBoost_keys (query : String) (merged : List (BChunk × ℚ)) (c : BChunk)
    (h : c ∈ keysOf (ymBoost query merged)) : c ∈ keysOf merged := by
  rw [ymBoost] at h
  cases hym : _extract_ym query with
  | none =>
    rw [hym] at h
    exact h
  | some ym =>
    rw [hym] at h
    obtain ⟨⟨c2, s⟩, hp, he⟩ := List.mem_map.mp h
    subst he
    have h2 := (sortS_perm scoreDescLe _).mem_iff.mp hp
    obtain ⟨⟨c3, s3⟩, hp3, he3⟩ := List.mem_map.mp h2
    have hc3 : c3 = (c2, s).1 := congrArg Prod.fst he3
    rw [← hc3]
    exact List.mem_map.mpr ⟨(c3, s3), hp3, rfl⟩

theorem rerank_with_llm_subset (q : String) (cands : List α) (batch : Nat)
    (judge : Nat → JudgeResp) (x : α)
    (h : x ∈ (rerank_with_llm q cands batch judge).map Prod.fst) : x ∈ cands := by
  obtain ⟨⟨c, s⟩, hm, he⟩ := List.mem_map.mp h
  have ha : c = x := he
  subst ha
  have h2 : (c, s) ∈ (chunksOf batch cands).enum.flatMap
      (fun p => scoreBatch p.2 (judge p.1)) :=
    (sortS_perm scoreDescLe _).mem_iff.mp hm
  obtain ⟨p, hp, hin⟩ := List.mem_flatMap.mp h2
  have h3 : c ∈ (scoreBatch p.2 (judge p.1)).map Prod.fst :=
    List.mem_map.mpr ⟨(c, s), hin, rfl⟩
  have h4 : c ∈ p.2 := scoreBatch_map_fst_subset _ _ _ h3
  have h5 : p.2 ∈ chunksOf batch cands := by
    have h6 := List.enum_map_snd (chunksOf batch cands)
    exact h6 ▸ List.mem_map.mpr ⟨p, hp, rfl⟩
  rw [← chunksOf_flatten batch cands]
  exact List.mem_flatten.mpr ⟨p.2, h5, h4⟩

theorem build_context_subset (query : String) (vec : String → Nat → List (BChunk × ℚ))
    (bm25 : Option (String → Nat → List (BChunk × ℚ))) (use_hybrid : Bool)
    (alpha : ℚ) (kN kK : Nat) (rer : RerankerName) (judge : Nat → JudgeResp)
    (c : BChunk) (s : ℚ)
    (h : (c, s) ∈ build_context query vec bm25 use_hybrid alpha kN kK rer judge) :
    c ∈ keysOf (vec query kN) ++ (Option.elim bm25 [] fun bm => keysOf (bm query kN)) := by
  have hstep : ∀ merged : List (BChunk × ℚ),
      (c, s) ∈ (match rer with
        | RerankerName.llm =>
          (rerank_with_llm query ((ymBoost query merged).map Prod.fst) 20 judge).take kK
        | RerankerName.noRerank => (ymBoost query merged).take kK) →
      c ∈ keysOf merged := by
    intro merged hm
    cases rer with
    | llm =>
      have h2 := List.mem_of_mem_take hm
      have h3 : c ∈ (rerank_with_llm query ((ymBoost query merged).map Prod.fst) 20
          judge).map Prod.fst := List.mem_map.mpr ⟨(c, s), h2, rfl⟩
      exact ymBoost_keys query merged c (rerank_with_llm_subset _ _ _ _ _ h3)
    | noRerank =>
      have h2 := List.mem_of_mem_take hm
      exact ymBoost_keys query merged c (List.mem_map.mpr ⟨(c, s), h2, rfl⟩)
  rcases bm25 with _ | bm
  · have h2 := hstep (vec query kN) h
    simp only [Option.elim]
    rw [List.append_nil]
    exact h2
  · cases use_hybrid with
    | false =>
      have h2 := hstep (vec query kN) h
      simp only [Option.elim]
      exact List.mem_append_left _ h2
    | true =>
      have h2 := hstep (hybrid_merge (vec query kN) (bm query kN) alpha kN) h
      obtain ⟨⟨c2, s2⟩, hp, he⟩ := List.mem_map.mp h2
      have hc2 : c2 = c := he
      subst hc2
      simp only [Option.elim]
      exact hybrid_merge_mem_keys (vec query kN) (bm query kN) alpha kN c2 s2 hp

/-! ### Claim theorems: schema/rule guidance chunks -/

/-- Counterexample for C9 as stated: a corpus built from a one-statement data
set contains no chunk whose source is `schema` or `rule` (the builder only
emits record, aggregate and agreement chunks), and the assembled context for
a policy query whose retrieval surfaced no schema/rule chunk contains none
either — nothing is prepended. -/
theorem corpus_context_schema_cex :
    ((build_corpus
        [{ text := "STATEMENT id=s1 ym=2024-09 interestCharged=42.5",
           source := "statement", ym := some "2024-09",
           raw := { ym := some "2024-09", interestCharged := some (85 / 2) } }]
        none).all
      fun c => !(c.source == "schema" || c.source == "rule")) = true ∧
    ((build_context "explain interest charges"
        (fun _ _ => [({ text := "TRANSACTION t1", source := "transaction" }, 1),
          ({ text := "STATEMENT s1", source := "statement" }, 1)])
        none false (6 / 10) 5 3 RerankerName.noRerank (fun _ => JudgeResp.malformed)).all
      fun p => !(p.1.source == "schema" || p.1.source == "rule")) = true := by
  constructor
  · decide
  · decide

/-- C9 (amended): the corpus builder never emits a schema/rule chunk — every
chunk it builds carries the source tag of an input row or the `aggregate` or
`agreement` tag — and the context assembler returns only chunks drawn from
its vector/lexical retrieval results, prepending nothing. -/
theorem corpus_no_schema_and_context_from_retrieval (flat : List FlatRow)
    (pdfText : Option String)
    (hsrc : ∀ row ∈ flat,
      row.source ∈ ["account_summary", "statement", "transaction", "payment"]) :
    (∀ c ∈ build_corpus flat pdfText, c.source ≠ "schema" ∧ c.source ≠ "rule") ∧
    (∀ (query : String) (vec : String → Nat → List (BChunk × ℚ))
      (bm25 : Option (String → Nat → List (BChunk × ℚ))) (use_hybrid : Bool)
      (alpha : ℚ) (kN kK : Nat) (rer : RerankerName) (judge : Nat → JudgeResp)
      (c : BChunk) (s : ℚ),
      (c, s) ∈ build_context query vec bm25 use_hybrid alpha kN kK rer judge →
      c ∈ keysOf (vec query kN) ++ (Option.elim bm25 [] fun bm => keysOf (bm query kN))) := by
  constructor
  · intro c hc
    have hsl : c.source ∈ ["account_summary", "statement", "transaction", "payment"]
        ∨ c.source = "aggregate" ∨ c.source = "agreement" := by
      rcases build_corpus_sources flat pdfText c hc with h | h | h
      · obtain ⟨row, hr, he⟩ := List.mem_map.mp h
        rw [← he]
        exact Or.inl (hsrc row hr)
      · exact Or.inr (Or.inl h)
      · exact Or.inr (Or.inr h)
    rcases hsl with h | h | h
    · simp only [List.mem_cons, List.not_mem_nil, or_false] at h
      rcases h with h | h | h | h
      all_goals rw [h]
      all_goals exact ⟨by decide, by decide⟩
    · rw [h]
      exact ⟨by decide, by decide⟩
    · rw [h]
      exact ⟨by decide, by decide⟩
  · intro query vec bm25 uh alpha kN kK rer judge c s hmem
    exact build_context_subset query vec bm25 uh alpha kN kK rer judge c s hmem

/-- Witness for C9 (amended) at the concrete corpus and context of the
counterexample. -/
theorem corpus_no_schema_witness :
    (({ text := "STATEMENT id=s1 ym=2024-09 interestCharged=42.5",
        source := "statement", ym := some "2024-09" } : BChunk).source ≠ "schema" ∧
      ({ text := "STATEMENT id=s1 ym=2024-09 interestCharged=42.5",
         source := "statement", ym := some "2024-09" } : BChunk).source ≠ "rule") ∧
    ({ text := "TRANSACTION t1", source := "transaction" } : BChunk) ∈
      keysOf ((fun (_ : String) (_ : Nat) =>
          [(({ text := "TRANSACTION t1", source := "transaction" } : BChunk), (1 : ℚ)),
           ({ text := "STATEMENT s1", source := "statement" }, 1)]) "explain interest charges" 5)
        ++ (Option.elim (none : Option (String → Nat → List (BChunk × ℚ))) []
              fun bm => keysOf (bm "explain interest charges" 5)) :=
  ⟨(corpus_no_schema_and_context_from_retrieval
      [{ text := "STATEMENT id=s1 ym=2024-09 interestCharged=42.5",
         source := "statement", ym := some "2024-09",
         raw := { ym := some "2024-09", interestCharged := some (85 / 2) } }]
      none (by decide)).1
      { text := "STATEMENT id=s1 ym=2024-09 interestCharged=42.5",
        source := "statement", ym := some "2024-09" }
      (by decide),
   (corpus_no_schema_and_context_from_retrieval
      [{ text := "STATEMENT id=s1 ym=2024-09 interestCharged=42.5",
         source := "statement", ym := some "2024-09",
         raw := { ym := some "2024-09", interestCharged := some (85 / 2) } }]
      none (by decide)).2
      "explain interest charges"
      (fun _ _ => [({ text := "TRANSACTION t1", source := "transaction" }, 1),
        ({ text := "STATEMENT s1", source := "statement" }, 1)])
      none false (6 / 10) 5 3 RerankerName.noRerank (fun _ => JudgeResp.malformed)
      { text := "TRANSACTION t1", source := "transaction" } 1
      (by
        rw [show build_context "explain interest charges"
            (fun _ _ => [(({ text := "TRANSACTION t1", source := "transaction" } : BChunk), (1 : ℚ)),
              ({ text := "STATEMENT s1", source := "statement" }, 1)])
            none false (6 / 10) 5 3 RerankerName.noRerank (fun _ => JudgeResp.malformed)
          = [(({ text := "TRANSACTION t1", source := "transaction" } : BChunk), (1 : ℚ)),
             ({ text := "STATEMENT s1", source := "statement" }, 1)] from rfl]
        exact List.mem_cons_self _ _)⟩
